import Mathlib

/-!
# A verification development for the XML lexer of `golexer-xml`

The lexer (`src/main.go`) is a state machine in the style of Go's
`text/template` lexer: a `lexer` value carries the input and three offsets
(`start`, `pos`, `width`), state functions consume runes and send `item`s on a
channel, and `run` drives the state functions until one of them returns `nil`,
after which the channel is closed.

Embedding.
* A Go `string` is its sequence of bytes, a `List Nat` (each byte below 256).
* A `rune` is a natural number (the decoder only produces values in
  `0 .. 0x10FFFF`); `int` offsets are integers.
* The channel `items` is the list of items sent so far; closing the channel is
  the state machine returning its final lexer.
* The `for { ... }` loops of the state functions recurse on a fuel argument;
  a run that exhausts it ends in `Result.outOfFuel`, an out-of-range slice in
  `Result.panic`.
* The Go standard library is modelled where the lexer calls it:
  `utf8.DecodeRuneInString`, the conversion `string(rune)`, `fmt.Sprintf` and
  `unicode.IsLetter` / `unicode.IsDigit`.  The Unicode range tables above
  Latin-1 are a parameter (`UnicodeTables`).
-/

namespace XmlLexer

/-! ## Results of a run -/

/-- Outcome of a computation of the model: a value, a Go run-time panic, or
the model running out of fuel. -/
inductive Result (α : Type) where
  | ok (a : α)
  | panic
  | outOfFuel
  deriving DecidableEq, Repr

/-! ## Go strings and the standard library -/

/-- A Go string: a sequence of bytes. -/
abbrev GoString := List Nat

/-- Constant `utf8.RuneError`, U+FFFD. -/
def RuneError : Nat := 0xFFFD

/-- Tables `utf8.first` and `utf8.acceptRanges` for a lead byte from 0x80 on:
the length of the sequence and the accepted range of its second byte, or
`none` for a byte that cannot start a sequence (entry `xx`). -/
def first (s0 : Nat) : Option (Nat × Nat × Nat) :=
  if s0 < 0xC2 then none
  else if s0 < 0xE0 then some (2, 0x80, 0xBF)
  else if s0 = 0xE0 then some (3, 0xA0, 0xBF)
  else if s0 < 0xED then some (3, 0x80, 0xBF)
  else if s0 = 0xED then some (3, 0x80, 0x9F)
  else if s0 < 0xF0 then some (3, 0x80, 0xBF)
  else if s0 = 0xF0 then some (4, 0x90, 0xBF)
  else if s0 < 0xF4 then some (4, 0x80, 0xBF)
  else if s0 = 0xF4 then some (4, 0x80, 0x8F)
  else none

/-- Go's `utf8.DecodeRuneInString`: the first rune of `s` and its width in
bytes; `(RuneError, 0)` for the empty string and `(RuneError, 1)` for an
invalid encoding.  Masks and shifts are written with `%` and `*`. -/
def DecodeRuneInString (s : GoString) : Nat × Nat :=
  match s with
  | [] => (RuneError, 0)
  | s0 :: _ =>
    if s0 < 0x80 then (s0, 1)
    else
      match first s0 with
      | none => (RuneError, 1)
      | some (sz, lo, hi) =>
        if s.length < sz then (RuneError, 1)
        else
          let s1 := s.getD 1 0
          if s1 < lo ∨ hi < s1 then (RuneError, 1)
          else if sz ≤ 2 then (s0 % 0x20 * 0x40 + s1 % 0x40, 2)
          else
            let s2 := s.getD 2 0
            if s2 < 0x80 ∨ 0xBF < s2 then (RuneError, 1)
            else if sz ≤ 3 then (s0 % 0x10 * 0x1000 + s1 % 0x40 * 0x40 + s2 % 0x40, 3)
            else
              let s3 := s.getD 3 0
              if s3 < 0x80 ∨ 0xBF < s3 then (RuneError, 1)
              else
                (s0 % 0x08 * 0x40000 + s1 % 0x40 * 0x1000 + s2 % 0x40 * 0x40 + s3 % 0x40, 4)

/-- Go's conversion `string(r)` of a rune: its UTF-8 encoding, and the
encoding of U+FFFD for a surrogate or a value out of range. -/
def runeToString (r : Nat) : GoString :=
  if r < 0x80 then [r]
  else if r < 0x800 then [0xC0 + r / 0x40, 0x80 + r % 0x40]
  else if (0xD800 ≤ r ∧ r ≤ 0xDFFF) ∨ 0x10FFFF < r then [0xEF, 0xBF, 0xBD]
  else if r < 0x10000 then [0xE0 + r / 0x1000, 0x80 + r / 0x40 % 0x40, 0x80 + r % 0x40]
  else [0xF0 + r / 0x40000, 0x80 + r / 0x1000 % 0x40, 0x80 + r / 0x40 % 0x40, 0x80 + r % 0x40]

/-- The bytes of a string literal of the source. -/
def str (s : String) : GoString :=
  s.toList.flatMap fun c => runeToString c.toNat

/-- The runes of a Go string, as `for _, r := range s` yields them. -/
def runes : Nat → GoString → List Nat
  | 0, _ => []
  | _, [] => []
  | fuel + 1, b :: s =>
    let d := DecodeRuneInString (b :: s)
    d.1 :: runes fuel ((b :: s).drop d.2)

/-- The range tables `unicode.Letter` and `unicode.Digit` for code points
above Latin-1 (U+00FF), which the standard library keeps apart from the
Latin-1 fast path. -/
structure UnicodeTables where
  /-- Membership in `unicode.Letter` above U+00FF. -/
  Letter : Nat → Bool
  /-- Membership in `unicode.Digit` above U+00FF. -/
  Digit : Nat → Bool

/-- Go's `unicode.IsLetter`: the Latin-1 property table, then the range
table. -/
def IsLetter (tbl : UnicodeTables) (r : Nat) : Bool :=
  if r ≤ 0xFF then
    decide ((0x41 ≤ r ∧ r ≤ 0x5A) ∨ (0x61 ≤ r ∧ r ≤ 0x7A) ∨ r = 0xAA ∨ r = 0xB5 ∨ r = 0xBA
      ∨ (0xC0 ≤ r ∧ r ≤ 0xD6) ∨ (0xD8 ≤ r ∧ r ≤ 0xF6) ∨ 0xF8 ≤ r)
  else tbl.Letter r

/-- Go's `unicode.IsDigit`: `0` to `9` in Latin-1, then the range table. -/
def IsDigit (tbl : UnicodeTables) (r : Nat) : Bool :=
  if r ≤ 0xFF then decide (0x30 ≤ r ∧ r ≤ 0x39) else tbl.Digit r

/-- How `fmt` prints a `[]interface{}` of strings under `%v`: the elements
between square brackets, separated by one space. -/
def fmtSlice (args : List GoString) : GoString :=
  str "[" ++ (args.intersperse (str " ")).flatten ++ str "]"

/-- Splits a format at its first `%v`: the text before and the text after. -/
def splitVerb : GoString → Option (GoString × GoString)
  | [] => none
  | [_] => none
  | a :: b :: t =>
    if a = 0x25 ∧ b = 0x76 then some ([], t)
    else
      match splitVerb (b :: t) with
      | none => none
      | some (pre, post) => some (a :: pre, post)

/-- Go's `fmt.Sprintf(format, args)` where the one operand `args` is a
`[]interface{}` of strings, for the formats of this program (plain text with
at most one `%v`).  The verb prints the slice; when the format has no verb the
operand is reported as `%!(EXTRA type=value)`. -/
def Sprintf (format : GoString) (args : List GoString) : GoString :=
  match splitVerb format with
  | some (pre, post) => pre ++ fmtSlice args ++ post
  | none => format ++ str "%!(EXTRA []interface \x7b\x7d=" ++ fmtSlice args ++ str ")"

/-! ## Data model (`src/main.go`, lines 9-43) -/

/-- Kinds of item. -/
inductive itemType where
  | tokenError
  | tokenEndOfFile
  | tokenTagBegin
  | tokenTagEnd
  | tokenTagBeginDash
  | tokenTagEndDash
  | tokenTagName
  | tokenAttrName
  | tokenEquals
  | tokenDoubleQuotedString
  | tokenSingleQuotedString
  | tokenText
  deriving DecidableEq, Repr

/-- An item sent to the consumer. -/
structure item where
  typ : itemType
  val : GoString
  deriving DecidableEq, Repr

/-- The state functions; Go's `nil` state is `none`. -/
inductive stateFn where
  | lexInit
  | lexCommon
  | lexTagName
  | lexTagInside
  deriving DecidableEq, Repr

/-- The lexer; `items` holds what has been sent on the channel. -/
structure lexer where
  init : stateFn
  input : GoString
  start : Int
  pos : Int
  width : Int
  items : List item
  deriving DecidableEq, Repr

/-- The rune constant `eof`. -/
def eof : Nat := 0

/-! ## Scanner and emitter (`src/main.go`, lines 62-99) -/

/-- Go's slice expression `s[i:j]`, which panics out of range. -/
def slice (s : GoString) (i j : Int) : Result GoString :=
  if 0 ≤ i ∧ i ≤ j ∧ j ≤ s.length then .ok ((s.drop i.toNat).take (j - i).toNat)
  else .panic

/-- Method `next`. -/
def lexer.next (l : lexer) : Result (Nat × lexer) :=
  if l.pos ≥ l.input.length then .ok (eof, l)
  else
    match slice l.input l.pos l.input.length with
    | .ok s =>
      let d := DecodeRuneInString s
      .ok (d.1, { l with width := d.2, pos := l.pos + d.2 })
    | .panic => .panic
    | .outOfFuel => .outOfFuel

/-- Method `backup`. -/
def lexer.backup (l : lexer) : lexer :=
  { l with pos := l.pos - l.width }

/-- Method `peek`. -/
def lexer.peek (l : lexer) : Result (Nat × lexer) :=
  match l.next with
  | .ok (r, l1) => .ok (r, l1.backup)
  | .panic => .panic
  | .outOfFuel => .outOfFuel

/-- Method `errorf`, called with the operands `args`. -/
def lexer.errorf (l : lexer) (format : GoString) (args : List GoString) :
    Option stateFn × lexer :=
  (none, { l with items := l.items ++ [⟨.tokenError, Sprintf format args⟩] })

/-- Method `emit`. -/
def lexer.emit (l : lexer) (typ : itemType) : Result lexer :=
  match slice l.input l.start l.pos with
  | .ok v => .ok { l with items := l.items ++ [⟨typ, v⟩], start := l.pos }
  | .panic => .panic
  | .outOfFuel => .outOfFuel

/-- Method `ignore`. -/
def lexer.ignore (l : lexer) : lexer :=
  { l with start := l.pos }

/-! ## Helpers (`src/main.go`, lines 181-188) -/

/-- Function `isValidFirstChar`. -/
def isValidFirstChar (tbl : UnicodeTables) (r : Nat) : Bool :=
  IsLetter tbl r || r == 0x5F || r == 0x3A

/-- Function `isValidChar`. -/
def isValidChar (tbl : UnicodeTables) (r : Nat) : Bool :=
  isValidFirstChar tbl r || IsDigit tbl r || r == 0x2D || r == 0x2E

/-! ## State functions (`src/main.go`, lines 101-179) -/

/-- The message of an end of input. -/
def msgEOF : GoString := str "Unexpected end of file"

/-- The message of an XML declaration. -/
def msgDecl : GoString := str "XML Declaration not supported yet"

/-- The message of a comment. -/
def msgComment : GoString := str "Comments not supported yet"

/-- The format of an invalid name character. -/
def msgName : GoString :=
  str "Invalid character: Expected \x27<first-character-of-tagname>\x27, found \x27%v\x27"

/-- The format of a `/` that no `>` follows. -/
def msgClose : GoString := str "Invalid character: Expected \x27>\x27, found \x27%v\x27"

/-- State `lexInit`. -/
def lexInit (l : lexer) : Result (Option stateFn × lexer) :=
  match l.peek with
  | .ok (r, l1) =>
    if r = eof then .ok (l1.errorf msgEOF [])
    else .ok (some .lexCommon, l1)
  | .panic => .panic
  | .outOfFuel => .outOfFuel

/-- State `lexCommon`; one unit of fuel for each iteration of its loop. -/
def lexCommon (tbl : UnicodeTables) : Nat → lexer → Result (Option stateFn × lexer)
  | 0, _ => .outOfFuel
  | fuel + 1, l =>
    match l.next with
    | .ok (r, l1) =>
      if r = eof then .ok (none, l1)
      else if r = 0x3C then
        match l1.next with
        | .ok (s, l2) =>
          if s = eof then .ok (l2.errorf msgEOF [])
          else if s = 0x2F then
            match l2.emit .tokenTagBeginDash with
            | .ok l3 => .ok (some .lexTagName, l3)
            | .panic => .panic
            | .outOfFuel => .outOfFuel
          else if s = 0x3F then .ok (l2.errorf msgDecl [])
          else if s = 0x21 then .ok (l2.errorf msgComment [])
          else if isValidFirstChar tbl s then
            match l2.backup.emit .tokenTagBegin with
            | .ok l3 => .ok (some .lexTagName, l3)
            | .panic => .panic
            | .outOfFuel => .outOfFuel
          else .ok (l2.errorf msgName [runeToString s])
        | .panic => .panic
        | .outOfFuel => .outOfFuel
      else if r = 0x3E ∨ r = 0x2F ∨ r = 0x3D ∨ r = 0x22 ∨ r = 0x27 then lexCommon tbl fuel l1
      else lexCommon tbl fuel l1
    | .panic => .panic
    | .outOfFuel => .outOfFuel

/-- State `lexTagName`; one unit of fuel for each iteration of its loop. -/
def lexTagName (tbl : UnicodeTables) : Nat → lexer → Result (Option stateFn × lexer)
  | 0, _ => .outOfFuel
  | fuel + 1, l =>
    match l.next with
    | .ok (r, l1) =>
      if r = eof then .ok (l1.errorf msgEOF [])
      else if r = 0x20 ∨ r = 0x2F then
        match l1.backup.emit .tokenTagName with
        | .ok l2 => .ok (some .lexTagInside, l2)
        | .panic => .panic
        | .outOfFuel => .outOfFuel
      else if !isValidChar tbl r then .ok (l1.errorf msgName [runeToString r])
      else lexTagName tbl fuel l1
    | .panic => .panic
    | .outOfFuel => .outOfFuel

/-- State `lexTagInside`; one unit of fuel for each iteration of its loop. -/
def lexTagInside : Nat → lexer → Result (Option stateFn × lexer)
  | 0, _ => .outOfFuel
  | fuel + 1, l =>
    match l.next with
    | .ok (r, l1) =>
      if r = eof then .ok (l1.errorf msgEOF [])
      else if r = 0x20 then lexTagInside fuel l1.ignore
      else if r = 0x2F then
        match l1.next with
        | .ok (s, l2) =>
          if s ≠ 0x3E then .ok (l2.errorf msgClose [runeToString s])
          else
            match l2.emit .tokenTagEndDash with
            | .ok l3 => .ok (none, l3)
            | .panic => .panic
            | .outOfFuel => .outOfFuel
        | .panic => .panic
        | .outOfFuel => .outOfFuel
      else if r = 0x3E then
        match l1.emit .tokenTagEnd with
        | .ok l2 => .ok (none, l2)
        | .panic => .panic
        | .outOfFuel => .outOfFuel
      else lexTagInside fuel l1
    | .panic => .panic
    | .outOfFuel => .outOfFuel

/-- Calling a state function; its loop gets `fuel` iterations. -/
def stateFn.call (tbl : UnicodeTables) (fuel : Nat) (st : stateFn) (l : lexer) :
    Result (Option stateFn × lexer) :=
  match st with
  | .lexInit => XmlLexer.lexInit l
  | .lexCommon => XmlLexer.lexCommon tbl fuel l
  | .lexTagName => XmlLexer.lexTagName tbl fuel l
  | .lexTagInside => XmlLexer.lexTagInside fuel l

/-! ## Driver (`src/main.go`, lines 45-60) -/

/-- The loop of `run` from the state `state`: `steps` bounds the number of
state functions called, `fuel` the iterations of each.  The result is the
lexer when the state is `nil`, which is when `run` closes the channel. -/
def runFrom (tbl : UnicodeTables) (fuel : Nat) : Nat → Option stateFn → lexer → Result lexer
  | _, none, l => .ok l
  | 0, some _, _ => .outOfFuel
  | steps + 1, some st, l =>
    match st.call tbl fuel l with
    | .ok (st1, l1) => runFrom tbl fuel steps st1 l1
    | .panic => .panic
    | .outOfFuel => .outOfFuel

/-- Method `run`. -/
def lexer.run (tbl : UnicodeTables) (fuel steps : Nat) (l : lexer) : Result lexer :=
  runFrom tbl fuel steps (some l.init) l

/-- The lexer `NewLexer` builds. -/
def newLexer (input : GoString) : lexer :=
  { init := .lexInit, input := input, start := 0, pos := 0, width := 0, items := [] }

/-- Function `NewLexer`, as the consumer of the channel sees it: the items
received until the channel is closed.  Each loop may take one iteration more
than the input has bytes, and `run` may call four state functions. -/
def NewLexer (tbl : UnicodeTables) (input : GoString) : Result (List item) :=
  match (newLexer input).run tbl (input.length + 1) 4 with
  | .ok l => .ok l.items
  | .panic => .panic
  | .outOfFuel => .outOfFuel

/-- The token kinds of a run. -/
def kinds (r : Result (List item)) : Result (List itemType) :=
  match r with
  | .ok items => .ok (items.map item.typ)
  | .panic => .panic
  | .outOfFuel => .outOfFuel

/-! ## Notions of the specification -/

/-- Scanner invariant of the specification: `0 <= start <= pos <= len(input)`. -/
def lexer.inv (l : lexer) : Prop :=
  0 ≤ l.start ∧ l.start ≤ l.pos ∧ l.pos ≤ l.input.length

/-- The next state and the kinds of the items sent that one call of a state
function can end with. -/
def stepKinds : stateFn → List (Option stateFn × List itemType)
  | .lexInit => [(none, [.tokenError]), (some .lexCommon, [])]
  | .lexCommon =>
    [(none, []), (none, [.tokenError]), (some .lexTagName, [.tokenTagBeginDash]),
      (some .lexTagName, [.tokenTagBegin])]
  | .lexTagName => [(none, [.tokenError]), (some .lexTagInside, [.tokenTagName])]
  | .lexTagInside => [(none, [.tokenError]), (none, [.tokenTagEndDash]), (none, [.tokenTagEnd])]

/-- Outcome of a call of the state function `st` on a lexer with the input
and items of `l0`: the call returns, the invariant holds, the input is the
same and the items sent are among `stepKinds st`. -/
def Post (st : stateFn) (l0 : lexer) (res : Result (Option stateFn × lexer)) : Prop :=
  ∃ st1 l1 new, res = .ok (st1, l1) ∧ l1.inv ∧ l1.input = l0.input ∧
    l1.items = l0.items ++ new ∧ (st1, new.map item.typ) ∈ stepKinds st

/-- The sequences of kinds that `run` can send from a state on. -/
def runKinds : Option stateFn → List (List itemType)
  | none => [[]]
  | some .lexTagInside => [[.tokenError], [.tokenTagEndDash], [.tokenTagEnd]]
  | some .lexTagName =>
    [[.tokenError], [.tokenTagName, .tokenError], [.tokenTagName, .tokenTagEndDash],
      [.tokenTagName, .tokenTagEnd]]
  | some .lexCommon =>
    [[], [.tokenError],
      [.tokenTagBeginDash, .tokenError], [.tokenTagBeginDash, .tokenTagName, .tokenError],
      [.tokenTagBeginDash, .tokenTagName, .tokenTagEndDash],
      [.tokenTagBeginDash, .tokenTagName, .tokenTagEnd],
      [.tokenTagBegin, .tokenError], [.tokenTagBegin, .tokenTagName, .tokenError],
      [.tokenTagBegin, .tokenTagName, .tokenTagEndDash],
      [.tokenTagBegin, .tokenTagName, .tokenTagEnd]]
  | some .lexInit =>
    [[], [.tokenError],
      [.tokenTagBeginDash, .tokenError], [.tokenTagBeginDash, .tokenTagName, .tokenError],
      [.tokenTagBeginDash, .tokenTagName, .tokenTagEndDash],
      [.tokenTagBeginDash, .tokenTagName, .tokenTagEnd],
      [.tokenTagBegin, .tokenError], [.tokenTagBegin, .tokenTagName, .tokenError],
      [.tokenTagBegin, .tokenTagName, .tokenTagEndDash],
      [.tokenTagBegin, .tokenTagName, .tokenTagEnd]]

/-- A bound on the number of state functions that `run` calls from a state
on. -/
def rank : Option stateFn → Nat
  | none => 0
  | some .lexTagInside => 1
  | some .lexTagName => 2
  | some .lexCommon => 3
  | some .lexInit => 4

/-- The tag-name grammar on the runes of a Go string: the string is not empty,
its first rune satisfies `isValidFirstChar` and every later rune
`isValidChar`. -/
def tagNameGrammar (tbl : UnicodeTables) (name : GoString) : Bool :=
  match runes name.length name with
  | [] => false
  | r :: rs => isValidFirstChar tbl r && rs.all (isValidChar tbl)

/-- Unicode tables without an entry; they decide nothing for input whose
runes are all in Latin-1. -/
def noTables : UnicodeTables := ⟨fun _ => false, fun _ => false⟩

/-- The lexer `l` with the string `t` appended to its input. -/
def lexer.extend (l : lexer) (t : GoString) : lexer :=
  { l with input := l.input ++ t }

/-! ## The states a run goes through

The state functions once more, with the list of the lexers that the calls of
`next`, `backup`, `peek`, `emit` and `ignore` leave, in the order of the
calls.  `peek` is its two calls, `next` and `backup`, the second of which
leaves the lexer that `peek` leaves. -/

/-- State `lexInit` and the lexers its calls leave. -/
def lexInitT (l : lexer) : Result ((Option stateFn × lexer) × List lexer) :=
  match l.next with
  | .ok (r, l1) =>
    if r = eof then .ok (l1.backup.errorf msgEOF [], [l1, l1.backup])
    else .ok ((some .lexCommon, l1.backup), [l1, l1.backup])
  | .panic => .panic
  | .outOfFuel => .outOfFuel

/-- State `lexCommon` and the lexers its calls leave. -/
def lexCommonT (tbl : UnicodeTables) :
    Nat → lexer → Result ((Option stateFn × lexer) × List lexer)
  | 0, _ => .outOfFuel
  | fuel + 1, l =>
    match l.next with
    | .ok (r, l1) =>
      if r = eof then .ok ((none, l1), [l1])
      else if r = 0x3C then
        match l1.next with
        | .ok (s, l2) =>
          if s = eof then .ok (l2.errorf msgEOF [], [l1, l2])
          else if s = 0x2F then
            match l2.emit .tokenTagBeginDash with
            | .ok l3 => .ok ((some .lexTagName, l3), [l1, l2, l3])
            | .panic => .panic
            | .outOfFuel => .outOfFuel
          else if s = 0x3F then .ok (l2.errorf msgDecl [], [l1, l2])
          else if s = 0x21 then .ok (l2.errorf msgComment [], [l1, l2])
          else if isValidFirstChar tbl s then
            match l2.backup.emit .tokenTagBegin with
            | .ok l3 => .ok ((some .lexTagName, l3), [l1, l2, l2.backup, l3])
            | .panic => .panic
            | .outOfFuel => .outOfFuel
          else .ok (l2.errorf msgName [runeToString s], [l1, l2])
        | .panic => .panic
        | .outOfFuel => .outOfFuel
      else
        match lexCommonT tbl fuel l1 with
        | .ok (res, tr) => .ok (res, l1 :: tr)
        | .panic => .panic
        | .outOfFuel => .outOfFuel
    | .panic => .panic
    | .outOfFuel => .outOfFuel

/-- State `lexTagName` and the lexers its calls leave. -/
def lexTagNameT (tbl : UnicodeTables) :
    Nat → lexer → Result ((Option stateFn × lexer) × List lexer)
  | 0, _ => .outOfFuel
  | fuel + 1, l =>
    match l.next with
    | .ok (r, l1) =>
      if r = eof then .ok (l1.errorf msgEOF [], [l1])
      else if r = 0x20 ∨ r = 0x2F then
        match l1.backup.emit .tokenTagName with
        | .ok l2 => .ok ((some .lexTagInside, l2), [l1, l1.backup, l2])
        | .panic => .panic
        | .outOfFuel => .outOfFuel
      else if !isValidChar tbl r then .ok (l1.errorf msgName [runeToString r], [l1])
      else
        match lexTagNameT tbl fuel l1 with
        | .ok (res, tr) => .ok (res, l1 :: tr)
        | .panic => .panic
        | .outOfFuel => .outOfFuel
    | .panic => .panic
    | .outOfFuel => .outOfFuel

/-- State `lexTagInside` and the lexers its calls leave. -/
def lexTagInsideT : Nat → lexer → Result ((Option stateFn × lexer) × List lexer)
  | 0, _ => .outOfFuel
  | fuel + 1, l =>
    match l.next with
    | .ok (r, l1) =>
      if r = eof then .ok (l1.errorf msgEOF [], [l1])
      else if r = 0x20 then
        match lexTagInsideT fuel l1.ignore with
        | .ok (res, tr) => .ok (res, l1 :: l1.ignore :: tr)
        | .panic => .panic
        | .outOfFuel => .outOfFuel
      else if r = 0x2F then
        match l1.next with
        | .ok (s, l2) =>
          if s ≠ 0x3E then .ok (l2.errorf msgClose [runeToString s], [l1, l2])
          else
            match l2.emit .tokenTagEndDash with
            | .ok l3 => .ok ((none, l3), [l1, l2, l3])
            | .panic => .panic
            | .outOfFuel => .outOfFuel
        | .panic => .panic
        | .outOfFuel => .outOfFuel
      else if r = 0x3E then
        match l1.emit .tokenTagEnd with
        | .ok l2 => .ok ((none, l2), [l1, l2])
        | .panic => .panic
        | .outOfFuel => .outOfFuel
      else
        match lexTagInsideT fuel l1 with
        | .ok (res, tr) => .ok (res, l1 :: tr)
        | .panic => .panic
        | .outOfFuel => .outOfFuel
    | .panic => .panic
    | .outOfFuel => .outOfFuel

/-- Calling a state function, with the lexers its calls leave. -/
def stateFn.callT (tbl : UnicodeTables) (fuel : Nat) (st : stateFn) (l : lexer) :
    Result ((Option stateFn × lexer) × List lexer) :=
  match st with
  | .lexInit => lexInitT l
  | .lexCommon => lexCommonT tbl fuel l
  | .lexTagName => lexTagNameT tbl fuel l
  | .lexTagInside => lexTagInsideT fuel l

/-- The loop of `run`, with the lexers that the calls of all the state
functions leave. -/
def runFromT (tbl : UnicodeTables) (fuel : Nat) :
    Nat → Option stateFn → lexer → Result (lexer × List lexer)
  | _, none, l => .ok (l, [])
  | 0, some _, _ => .outOfFuel
  | steps + 1, some st, l =>
    match st.callT tbl fuel l with
    | .ok ((st1, l1), tr) =>
      match runFromT tbl fuel steps st1 l1 with
      | .ok (l2, tr2) => .ok (l2, tr ++ tr2)
      | .panic => .panic
      | .outOfFuel => .outOfFuel
    | .panic => .panic
    | .outOfFuel => .outOfFuel

/-! ## The decoder -/

theorem first_spec {b sz lo hi : Nat} (h : first b = some (sz, lo, hi)) :
    2 ≤ sz ∧ sz ≤ 4 ∧ 0x80 ≤ lo ∧ 0xC2 ≤ b := by
  unfold first at h
  split_ifs at h <;> simp at h <;> omega

theorem decode_width (s : GoString) (hs : s ≠ []) :
    1 ≤ (DecodeRuneInString s).2 ∧ (DecodeRuneInString s).2 ≤ s.length := by
  rcases s with _ | ⟨b0, t⟩
  · exact absurd rfl hs
  · unfold DecodeRuneInString
    by_cases h0 : b0 < 0x80
    · simp [h0]
    · cases hf : first b0 with
      | none => simp [h0, hf]
      | some p =>
        obtain ⟨sz, lo, hi⟩ := p
        have hsz := first_spec hf
        simp only [h0, if_false, hf, List.length_cons]
        split_ifs <;> simp only [] <;> omega

theorem decode_append (s rest : GoString) (hs : s ≠ [])
    (hr : ∀ c t, rest = c :: t → c < 0x80) :
    DecodeRuneInString (s ++ rest) = DecodeRuneInString s := by
  rcases s with _ | ⟨b0, t⟩
  · exact absurd rfl hs
  · unfold DecodeRuneInString
    simp only [List.cons_append]
    by_cases h0 : b0 < 0x80
    · simp [h0]
    · cases hf : first b0 with
      | none => simp [h0, hf]
      | some p =>
        obtain ⟨sz, lo, hi⟩ := p
        have hsz := first_spec hf
        simp only [h0, if_false, hf]
        rcases rest with _ | ⟨c, r⟩
        · simp
        · have hc := hr c r rfl
          rcases t with _ | ⟨b1, _ | ⟨b2, _ | ⟨b3, t4⟩⟩⟩
          · simp
            split_ifs <;> first | rfl | omega
          · simp
            split_ifs <;> first | rfl | omega
          · simp
            split_ifs <;> first | rfl | omega
          · simp
            split_ifs <;> first | rfl | omega

/-! ### Scanner steps -/

theorem slice_eq (s : GoString) (i j : Nat) (hij : i ≤ j) (hj : j ≤ s.length) :
    slice s i j = .ok ((s.drop i).take (j - i)) := by
  unfold slice
  have h : (0 : Int) ≤ (i : Int) ∧ (i : Int) ≤ (j : Int) ∧ (j : Int) ≤ (s.length : Int) := by
    omega
  rw [if_pos h]
  have h2 : ((j : Int) - (i : Int)).toNat = j - i := by omega
  rw [h2, Int.toNat_ofNat]

theorem next_of_lt (ini : stateFn) (inp : GoString) (st w : Int) (its : List item) (p : Nat)
    (hlt : p < inp.length) :
    lexer.next ⟨ini, inp, st, p, w, its⟩ =
      .ok ((DecodeRuneInString (inp.drop p)).1,
        ⟨ini, inp, st, ((p + (DecodeRuneInString (inp.drop p)).2 : Nat) : Int),
          ((DecodeRuneInString (inp.drop p)).2 : Nat), its⟩) := by
  unfold lexer.next
  have h : ¬ ((p : Int) ≥ (inp.length : Int)) := by omega
  simp only [h, if_false]
  rw [slice_eq inp p inp.length (by omega) (le_refl _)]
  simp only [List.take_of_length_le (le_of_eq (List.length_drop p inp)), Nat.cast_add]

theorem next_of_ge (l : lexer) (h : (l.input.length : Int) ≤ l.pos) : l.next = .ok (eof, l) := by
  unfold lexer.next
  rw [if_pos h]
/-! ## Every call of a state function: invariant, input and kinds sent -/

theorem next_spec (l : lexer) (h : l.inv) :
    ∃ r l1, l.next = .ok (r, l1) ∧ l1.init = l.init ∧ l1.input = l.input ∧
      l1.start = l.start ∧ l1.items = l.items ∧ l1.pos ≤ l.input.length ∧
      ((r = eof ∧ l1 = l) ∨ (l.pos < l1.pos ∧ l1.width = l1.pos - l.pos)) := by
  obtain ⟨ini, inp, st, pos, w, its⟩ := l
  obtain ⟨h0, h1, h2⟩ := h
  simp only at h0 h1 h2
  by_cases hge : (inp.length : Int) ≤ pos
  · exact ⟨eof, _, next_of_ge _ hge, rfl, rfl, rfl, rfl, h2, Or.inl ⟨rfl, rfl⟩⟩
  · obtain ⟨p, rfl⟩ : ∃ p : Nat, pos = (p : Int) := ⟨pos.toNat, by omega⟩
    have hlt : p < inp.length := by omega
    have hne : inp.drop p ≠ [] := by
      intro hnil
      have := congrArg List.length hnil
      simp at this
      omega
    have hw := decode_width (inp.drop p) hne
    rw [List.length_drop] at hw
    refine ⟨_, _, next_of_lt ini inp st w its p hlt, rfl, rfl, rfl, rfl, ?_, Or.inr ⟨?_, ?_⟩⟩
    · simp only; omega
    · simp only; omega
    · simp only; omega

theorem emit_spec (l : lexer) (h : l.inv) (typ : itemType) :
    ∃ v, l.emit typ = .ok { l with items := l.items ++ [⟨typ, v⟩], start := l.pos } := by
  obtain ⟨h0, h1, h2⟩ := h
  unfold lexer.emit slice
  rw [if_pos ⟨h0, h1, h2⟩]
  exact ⟨_, rfl⟩

theorem errorf_post (st : stateFn) (l0 l : lexer) (format : GoString) (args : List GoString)
    (hinv : l.inv) (hin : l.input = l0.input) (hit : l.items = l0.items)
    (hmem : (none, [itemType.tokenError]) ∈ stepKinds st) :
    Post st l0 (.ok (l.errorf format args)) :=
  ⟨none, _, [⟨.tokenError, Sprintf format args⟩], rfl, hinv, hin, by
    simp only [lexer.errorf, hit], hmem⟩

theorem emit_post (st : stateFn) (l0 l : lexer) (typ : itemType) (nxt : Option stateFn)
    (hinv : l.inv) (hin : l.input = l0.input) (hit : l.items = l0.items)
    (hmem : (nxt, [typ]) ∈ stepKinds st) :
    Post st l0
      (match l.emit typ with
        | .ok l3 => .ok (nxt, l3)
        | .panic => .panic
        | .outOfFuel => .outOfFuel) := by
  obtain ⟨v, hv⟩ := emit_spec l hinv typ
  rw [hv]
  refine ⟨nxt, _, [⟨typ, v⟩], rfl, ?_, hin, by simp only [hit], hmem⟩
  obtain ⟨h0, h1, h2⟩ := hinv
  exact ⟨by simp only; omega, le_refl _, h2⟩

theorem lexInit_post (l : lexer) (h : l.inv) (hw : l.width = 0) :
    Post .lexInit l (lexInit l) := by
  obtain ⟨r, l1, hn, -, hin, hst, hit, hle, hc⟩ := next_spec l h
  unfold lexInit lexer.peek
  rw [hn]
  simp only
  have hinv : l1.backup.inv := by
    obtain ⟨h0, h1, h2⟩ := h
    rcases hc with ⟨-, rfl⟩ | ⟨hlt, hwd⟩
    · refine ⟨h0, ?_, ?_⟩ <;> simp only [lexer.backup, hw] <;> omega
    · refine ⟨?_, ?_, ?_⟩ <;> simp only [lexer.backup, hst, hin, hwd] <;> omega
  by_cases hr : r = eof
  · rw [if_pos hr]
    exact errorf_post _ _ _ _ _ hinv hin hit (by simp [stepKinds])
  · rw [if_neg hr]
    exact ⟨_, _, [], rfl, hinv, hin, by simp [lexer.backup, hit], by simp [stepKinds]⟩

theorem next_inv {r : Nat} {l l1 : lexer} (h : l.inv) (hst : l1.start = l.start)
    (hin : l1.input = l.input) (hle : l1.pos ≤ l.input.length)
    (hc : (r = eof ∧ l1 = l) ∨ (l.pos < l1.pos ∧ l1.width = l1.pos - l.pos)) : l1.inv := by
  obtain ⟨h0, h1, h2⟩ := h
  refine ⟨by omega, ?_, by rw [hin]; exact hle⟩
  rcases hc with ⟨-, rfl⟩ | ⟨hlt, -⟩ <;> omega

theorem lexCommon_post (tbl : UnicodeTables) (fuel : Nat) :
    ∀ (l0 l : lexer), l.inv → l.input = l0.input → l.items = l0.items →
      (l.input.length - l.pos).toNat < fuel → Post .lexCommon l0 (lexCommon tbl fuel l) := by
  induction fuel with
  | zero => intro l0 l _ _ _ hf; omega
  | succ n ih =>
    intro l0 l h hin0 hit0 hf
    obtain ⟨r, l1, hn, -, hin, hst, hit, hle, hc⟩ := next_spec l h
    have hinv1 : l1.inv := next_inv h hst hin hle hc
    unfold lexCommon
    rw [hn]
    simp only
    by_cases hr : r = eof
    · rw [if_pos hr]
      exact ⟨none, l1, [], rfl, hinv1, hin.trans hin0, by simp [hit, hit0], by simp [stepKinds]⟩
    · rw [if_neg hr]
      have hadv : l.pos < l1.pos := by
        rcases hc with ⟨h1, -⟩ | ⟨h1, -⟩
        · exact absurd h1 hr
        · exact h1
      have hrec : Post .lexCommon l0 (lexCommon tbl n l1) :=
        ih l0 l1 hinv1 (hin.trans hin0) (hit.trans hit0) (by rw [hin]; omega)
      by_cases hlt : r = 0x3C
      · rw [if_pos hlt]
        obtain ⟨s, l2, hn2, -, hin2, hst2, hit2, hle2, hc2⟩ := next_spec l1 hinv1
        have hinv2 : l2.inv := next_inv hinv1 hst2 hin2 hle2 hc2
        rw [hn2]
        simp only
        have hI := hin2.trans (hin.trans hin0)
        have hT := hit2.trans (hit.trans hit0)
        split_ifs with hs1 hs2 hs3 hs4 hs5
        · exact errorf_post _ _ _ _ _ hinv2 hI hT (by simp [stepKinds])
        · exact emit_post _ _ _ _ _ hinv2 hI hT (by simp [stepKinds])
        · exact errorf_post _ _ _ _ _ hinv2 hI hT (by simp [stepKinds])
        · exact errorf_post _ _ _ _ _ hinv2 hI hT (by simp [stepKinds])
        · have hb : l2.backup.inv := by
            rcases hc2 with ⟨h1, -⟩ | ⟨h1, h2⟩
            · exact absurd h1 hs1
            · obtain ⟨a0, a1, a2⟩ := hinv1
              obtain ⟨b0, b1, b2⟩ := hinv2
              refine ⟨?_, ?_, ?_⟩ <;> simp only [lexer.backup] <;> omega
          exact emit_post _ _ _ _ _ hb hI hT (by simp [stepKinds])
        · exact errorf_post _ _ _ _ _ hinv2 hI hT (by simp [stepKinds])
      · rw [if_neg hlt]
        split_ifs <;> exact hrec

theorem lexTagName_post (tbl : UnicodeTables) (fuel : Nat) :
    ∀ (l0 l : lexer), l.inv → l.input = l0.input → l.items = l0.items →
      (l.input.length - l.pos).toNat < fuel →
      Post .lexTagName l0 (lexTagName tbl fuel l) := by
  induction fuel with
  | zero => intro l0 l _ _ _ hf; omega
  | succ n ih =>
    intro l0 l h hin0 hit0 hf
    obtain ⟨r, l1, hn, -, hin, hst, hit, hle, hc⟩ := next_spec l h
    have hinv1 : l1.inv := next_inv h hst hin hle hc
    have hI := hin.trans hin0
    have hT := hit.trans hit0
    unfold lexTagName
    rw [hn]
    simp only
    by_cases hr : r = eof
    · rw [if_pos hr]
      exact errorf_post _ _ _ _ _ hinv1 hI hT (by simp [stepKinds])
    · rw [if_neg hr]
      have hadv : l.pos < l1.pos ∧ l1.width = l1.pos - l.pos := by
        rcases hc with ⟨h1, -⟩ | h1
        · exact absurd h1 hr
        · exact h1
      split_ifs with hd hv
      · have hb : l1.backup.inv := by
          obtain ⟨a0, a1, a2⟩ := h
          obtain ⟨b0, b1, b2⟩ := hinv1
          refine ⟨?_, ?_, ?_⟩ <;> simp only [lexer.backup] <;> omega
        exact emit_post _ _ _ _ _ hb hI hT (by simp [stepKinds])
      · exact errorf_post _ _ _ _ _ hinv1 hI hT (by simp [stepKinds])
      · exact ih l0 l1 hinv1 hI hT (by rw [hin]; omega)

theorem lexTagInside_post (fuel : Nat) :
    ∀ (l0 l : lexer), l.inv → l.input = l0.input → l.items = l0.items →
      (l.input.length - l.pos).toNat < fuel →
      Post .lexTagInside l0 (lexTagInside fuel l) := by
  induction fuel with
  | zero => intro l0 l _ _ _ hf; omega
  | succ n ih =>
    intro l0 l h hin0 hit0 hf
    obtain ⟨r, l1, hn, -, hin, hst, hit, hle, hc⟩ := next_spec l h
    have hinv1 : l1.inv := next_inv h hst hin hle hc
    have hI := hin.trans hin0
    have hT := hit.trans hit0
    unfold lexTagInside
    rw [hn]
    simp only
    by_cases hr : r = eof
    · rw [if_pos hr]
      exact errorf_post _ _ _ _ _ hinv1 hI hT (by simp [stepKinds])
    · rw [if_neg hr]
      have hadv : l.pos < l1.pos := by
        rcases hc with ⟨h1, -⟩ | ⟨h1, -⟩
        · exact absurd h1 hr
        · exact h1
      by_cases hsp : r = 0x20
      · rw [if_pos hsp]
        have hig : l1.ignore.inv := by
          obtain ⟨b0, b1, b2⟩ := hinv1
          exact ⟨by simp only [lexer.ignore]; omega, le_refl _, b2⟩
        exact ih l0 l1.ignore hig hI hT (by simp only [lexer.ignore]; rw [hin]; omega)
      · rw [if_neg hsp]
        by_cases hsl : r = 0x2F
        · rw [if_pos hsl]
          obtain ⟨s, l2, hn2, -, hin2, hst2, hit2, hle2, hc2⟩ := next_spec l1 hinv1
          have hinv2 : l2.inv := next_inv hinv1 hst2 hin2 hle2 hc2
          rw [hn2]
          simp only
          split_ifs with hs
          · exact errorf_post _ _ _ _ _ hinv2 (hin2.trans hI) (hit2.trans hT)
              (by simp [stepKinds])
          · exact emit_post _ _ _ _ _ hinv2 (hin2.trans hI) (hit2.trans hT)
              (by simp [stepKinds])
        · rw [if_neg hsl]
          split_ifs with hgt
          · exact emit_post _ _ _ _ _ hinv1 hI hT (by simp [stepKinds])
          · exact ih l0 l1 hinv1 hI hT (by rw [hin]; omega)

theorem call_post (tbl : UnicodeTables) (st : stateFn) (l : lexer) (fuel : Nat) (h : l.inv)
    (hw : st = .lexInit → l.width = 0) (hf : l.input.length < fuel) :
    Post st l (st.call tbl fuel l) := by
  have hfuel : (l.input.length - l.pos).toNat < fuel := by
    obtain ⟨a0, a1, a2⟩ := h
    omega
  cases st with
  | lexInit => exact lexInit_post l h (hw rfl)
  | lexCommon => exact lexCommon_post tbl fuel l l h rfl rfl hfuel
  | lexTagName => exact lexTagName_post tbl fuel l l h rfl rfl hfuel
  | lexTagInside => exact lexTagInside_post fuel l l h rfl rfl hfuel

/-! ## Every run: termination and the kinds sent -/

theorem stepKinds_runKinds (st : stateFn) :
    ∀ p ∈ stepKinds st, p.1 ≠ some .lexInit ∧ rank p.1 < rank (some st) ∧
      ∀ ks ∈ runKinds p.1, p.2 ++ ks ∈ runKinds (some st) := by
  cases st <;> decide

theorem runFrom_kinds (tbl : UnicodeTables) (fuel : Nat) (steps : Nat) :
    ∀ (st : Option stateFn) (l : lexer), l.inv → (st = some .lexInit → l.width = 0) →
      l.input.length < fuel → rank st ≤ steps →
      ∃ l1 new, runFrom tbl fuel steps st l = .ok l1 ∧ l1.items = l.items ++ new ∧
        new.map item.typ ∈ runKinds st := by
  induction steps with
  | zero =>
    intro st l _ _ _ hr
    cases st with
    | none => exact ⟨l, [], by simp [runFrom], by simp, by simp [runKinds]⟩
    | some s => cases s <;> simp [rank] at hr
  | succ k ih =>
    intro st l h hw hf hr
    cases st with
    | none => exact ⟨l, [], by simp [runFrom], by simp, by simp [runKinds]⟩
    | some s =>
      obtain ⟨st1, l1, new, hcall, hinv1, hin1, hit1, hmem⟩ :=
        call_post tbl s l fuel h (fun e => hw (congrArg some e)) hf
      obtain ⟨hne, hrk, hks⟩ := stepKinds_runKinds s _ hmem
      obtain ⟨l2, new2, hrun, hit2, hmem2⟩ :=
        ih st1 l1 hinv1 (fun e => absurd e hne) (by rw [hin1]; exact hf) (by
          have : rank st1 < rank (some s) := hrk
          omega)
      refine ⟨l2, new ++ new2, ?_, ?_, ?_⟩
      · simp only [runFrom, hcall, hrun]
      · rw [hit2, hit1, List.append_assoc]
      · rw [List.map_append]
        exact hks _ hmem2

theorem NewLexer_kinds (tbl : UnicodeTables) (input : GoString) :
    ∃ items, NewLexer tbl input = .ok items ∧
      items.map item.typ ∈ runKinds (some .lexInit) := by
  have hinv : (newLexer input).inv := by
    refine ⟨le_refl _, le_refl _, ?_⟩
    simp only [newLexer]
    omega
  obtain ⟨l1, new, hrun, hit, hmem⟩ :=
    runFrom_kinds tbl (input.length + 1) 4 (some .lexInit) (newLexer input) hinv
      (fun _ => rfl) (by simp [newLexer]) (by simp [rank])
  refine ⟨l1.items, ?_, ?_⟩
  · unfold NewLexer lexer.run
    have : (newLexer input).init = .lexInit := rfl
    rw [this, hrun]
  · rw [hit]
    simpa [newLexer] using hmem

/-! ## Runs on the tags of the tests: a name, spaces, a delimiter -/

theorem isValidFirstChar_ne {tbl : UnicodeTables} {r : Nat} (h : isValidFirstChar tbl r = true) :
    r ≠ 0 ∧ r ≠ 0x2F ∧ r ≠ 0x3F ∧ r ≠ 0x21 ∧ r ≠ 0x20 := by
  refine ⟨?_, ?_, ?_, ?_, ?_⟩ <;> rintro rfl <;>
    simp [isValidFirstChar, IsLetter] at h

theorem isValidChar_ne {tbl : UnicodeTables} {r : Nat} (h : isValidChar tbl r = true) :
    r ≠ 0 ∧ r ≠ 0x20 ∧ r ≠ 0x2F := by
  refine ⟨?_, ?_, ?_⟩ <;> rintro rfl <;>
    simp [isValidChar, isValidFirstChar, IsLetter, IsDigit] at h

theorem isValidChar_of_first {tbl : UnicodeTables} {r : Nat}
    (h : isValidFirstChar tbl r = true) : isValidChar tbl r = true := by
  simp [isValidChar, h]

theorem tagNameGrammar_runes {tbl : UnicodeTables} {name : GoString}
    (h : tagNameGrammar tbl name = true) :
    name ≠ [] ∧ isValidFirstChar tbl (DecodeRuneInString name).1 = true ∧
      (runes name.length name).all (isValidChar tbl) = true := by
  rcases name with _ | ⟨b, t⟩
  · simp [tagNameGrammar, runes] at h
  · simp only [tagNameGrammar, runes, List.length_cons, Bool.and_eq_true] at h
    refine ⟨by simp, h.1, ?_⟩
    simp only [runes, List.length_cons, List.all_cons, Bool.and_eq_true]
    exact ⟨isValidChar_of_first h.1, h.2⟩

theorem drop_lt_length {inp : GoString} {p : Nat} {c : Nat} {t : GoString}
    (h : inp.drop p = c :: t) : p < inp.length := by
  have := congrArg List.length h
  simp at this
  omega

theorem next_at (ini : stateFn) (inp : GoString) (st w : Int) (its : List item) (p : Nat)
    (c : Nat) (t : GoString) (h : inp.drop p = c :: t) (hc : c < 0x80) :
    lexer.next ⟨ini, inp, st, p, w, its⟩ = .ok (c, ⟨ini, inp, st, ((p + 1 : Nat) : Int), 1, its⟩) := by
  rw [next_of_lt ini inp st w its p (drop_lt_length h), h]
  simp [DecodeRuneInString, hc]

theorem lexTagName_skip (tbl : UnicodeTables) (ini : stateFn) (inp rest : GoString) (st : Int)
    (its : List item) (hrest : ∀ c t, rest = c :: t → c < 0x80) (n : Nat) :
    ∀ (s : GoString) (p fuel : Nat) (w : Int), s.length ≤ n → n < fuel →
      (runes n s).all (isValidChar tbl) = true → inp.drop p = s ++ rest →
      ∃ (w1 : Int) (fuel1 : Nat), 0 < fuel1 ∧
        lexTagName tbl fuel ⟨ini, inp, st, p, w, its⟩ =
          lexTagName tbl fuel1 ⟨ini, inp, st, ((p + s.length : Nat) : Int), w1, its⟩ := by
  induction n with
  | zero =>
    intro s p fuel w hs hf _ _
    have : s = [] := List.length_eq_zero.mp (by omega)
    subst this
    exact ⟨w, fuel, hf, rfl⟩
  | succ n ih =>
    intro s p fuel w hs hf hall hdrop
    rcases s with _ | ⟨b, t⟩
    · exact ⟨w, fuel, by omega, rfl⟩
    · obtain ⟨f, rfl⟩ : ∃ f, fuel = f + 1 := ⟨fuel - 1, by omega⟩
      have hw := decode_width (b :: t) (by simp)
      simp only [runes, List.all_cons, Bool.and_eq_true] at hall
      obtain ⟨hv, hall⟩ := hall
      obtain ⟨hne0, hne1, hne2⟩ := isValidChar_ne hv
      have hlt : p < inp.length := drop_lt_length hdrop
      have hdrop2 : inp.drop (p + (DecodeRuneInString (b :: t)).2) =
          (b :: t).drop (DecodeRuneInString (b :: t)).2 ++ rest := by
        rw [← List.drop_drop, hdrop, List.drop_append_of_le_length hw.2]
      obtain ⟨w1, fuel1, hpos, heq⟩ :=
        ih ((b :: t).drop (DecodeRuneInString (b :: t)).2)
          (p + (DecodeRuneInString (b :: t)).2) f
          ((DecodeRuneInString (b :: t)).2 : Nat) (by
            rw [List.length_drop]
            simp only [List.length_cons] at hs hw ⊢
            omega) (by omega) hall hdrop2
      have hlen : p + (DecodeRuneInString (b :: t)).2 +
          ((b :: t).drop (DecodeRuneInString (b :: t)).2).length = p + (b :: t).length := by
        rw [List.length_drop]
        omega
      rw [hlen] at heq
      refine ⟨w1, fuel1, hpos, ?_⟩
      rw [← heq]
      conv_lhs => unfold lexTagName
      rw [next_of_lt ini inp st w its p hlt, hdrop, decode_append (b :: t) rest (by simp) hrest]
      simp only [eof, hne0, hne1, hne2, hv, if_false, or_self, Bool.not_true]
      rfl

theorem emit_at (ini : stateFn) (inp : GoString) (st p : Nat) (w : Int) (its : List item)
    (typ : itemType) (h1 : st ≤ p) (h2 : p ≤ inp.length) :
    lexer.emit ⟨ini, inp, st, p, w, its⟩ typ =
      .ok ⟨ini, inp, p, p, w, its ++ [⟨typ, (inp.drop st).take (p - st)⟩]⟩ := by
  unfold lexer.emit
  simp only
  rw [slice_eq inp st p h1 h2]

theorem lexTagName_delim (tbl : UnicodeTables) (ini : stateFn) (inp : GoString) (st q : Nat)
    (w : Int) (its : List item) (fuel : Nat) (d : Nat) (t : GoString) (hf : 0 < fuel)
    (hst : st ≤ q) (hdrop : inp.drop q = d :: t) (hd : d = 0x20 ∨ d = 0x2F) :
    lexTagName tbl fuel ⟨ini, inp, st, q, w, its⟩ =
      .ok (some .lexTagInside,
        ⟨ini, inp, q, q, 1, its ++ [⟨.tokenTagName, (inp.drop st).take (q - st)⟩]⟩) := by
  obtain ⟨f, rfl⟩ : ∃ f, fuel = f + 1 := ⟨fuel - 1, by omega⟩
  have hlt := drop_lt_length hdrop
  unfold lexTagName
  rw [next_at ini inp st w its q d t hdrop (by omega)]
  have hne : d ≠ eof := by unfold eof; omega
  simp only [hne, hd, if_false, if_true, lexer.backup]
  have hpos : ((q + 1 : Nat) : Int) - 1 = (q : Int) := by omega
  rw [hpos, emit_at ini inp st q 1 its .tokenTagName hst (by omega)]

theorem lexTagName_eof (tbl : UnicodeTables) (ini : stateFn) (inp : GoString) (st : Int)
    (q : Nat) (w : Int) (its : List item) (fuel : Nat) (hf : 0 < fuel)
    (hq : inp.length ≤ q) :
    lexTagName tbl fuel ⟨ini, inp, st, q, w, its⟩ =
      .ok (none, ⟨ini, inp, st, q, w, its ++ [⟨.tokenError, Sprintf msgEOF []⟩]⟩) := by
  obtain ⟨f, rfl⟩ : ∃ f, fuel = f + 1 := ⟨fuel - 1, by omega⟩
  unfold lexTagName
  rw [next_of_ge _ (by simp only; omega)]
  simp [lexer.errorf]

theorem lexCommon_open (tbl : UnicodeTables) (ini : stateFn) (inp : GoString) (st p : Nat)
    (w : Int) (its : List item) (fuel : Nat) (name rest : GoString) (hf : 0 < fuel)
    (hst : st ≤ p) (hdrop : inp.drop p = 0x3C :: (name ++ rest)) (hname : name ≠ [])
    (hrest : ∀ c t, rest = c :: t → c < 0x80)
    (hfirst : isValidFirstChar tbl (DecodeRuneInString name).1 = true) :
    lexCommon tbl fuel ⟨ini, inp, st, p, w, its⟩ =
      .ok (some .lexTagName,
        ⟨ini, inp, ((p + 1 : Nat) : Int), ((p + 1 : Nat) : Int), ((DecodeRuneInString name).2 : Nat),
          its ++ [⟨.tokenTagBegin, (inp.drop st).take (p + 1 - st)⟩]⟩) := by
  obtain ⟨f, rfl⟩ : ∃ f, fuel = f + 1 := ⟨fuel - 1, by omega⟩
  have hlt := drop_lt_length hdrop
  obtain ⟨b, t, rfl⟩ : ∃ b t, name = b :: t := List.exists_cons_of_ne_nil hname
  have hdrop1 : inp.drop (p + 1) = (b :: t) ++ rest := by
    rw [← List.drop_drop, hdrop]
    rfl
  have hlt1 : p + 1 < inp.length := drop_lt_length hdrop1
  obtain ⟨h0, h1, h2, h3, -⟩ := isValidFirstChar_ne hfirst
  unfold lexCommon
  rw [next_at ini inp st w its p 0x3C _ hdrop (by omega)]
  simp only [eof, if_true, if_false, Nat.reduceEqDiff]
  rw [next_of_lt ini inp st 1 its (p + 1) hlt1, hdrop1, decode_append (b :: t) rest (by simp) hrest]
  simp only [eof, h0, h1, h2, h3, hfirst, if_false, if_true, lexer.backup]
  have hw := decode_width (b :: t) (by simp)
  have hpos : ((p + 1 + (DecodeRuneInString (b :: t)).2 : Nat) : Int) -
      ((DecodeRuneInString (b :: t)).2 : Nat) = ((p + 1 : Nat) : Int) := by omega
  rw [hpos, emit_at ini inp st (p + 1) _ its .tokenTagBegin (by omega) (by omega)]

theorem lexTagInside_spaces (ini : stateFn) (inp rest : GoString) (its : List item) (n : Nat) :
    ∀ (p fuel : Nat) (w : Int), n < fuel → inp.drop p = List.replicate n 0x20 ++ rest →
      ∃ w1 : Int,
        lexTagInside fuel ⟨ini, inp, p, p, w, its⟩ =
          lexTagInside (fuel - n) ⟨ini, inp, ((p + n : Nat) : Int), ((p + n : Nat) : Int), w1, its⟩ := by
  induction n with
  | zero => intro p fuel w _ _; exact ⟨w, rfl⟩
  | succ n ih =>
    intro p fuel w hf hdrop
    obtain ⟨f, rfl⟩ : ∃ f, fuel = f + 1 := ⟨fuel - 1, by omega⟩
    have hdrop0 : inp.drop p = 0x20 :: (List.replicate n 0x20 ++ rest) := by
      rw [hdrop]
      rfl
    have hdrop1 : inp.drop (p + 1) = List.replicate n 0x20 ++ rest := by
      rw [← List.drop_drop, hdrop0]
      rfl
    obtain ⟨w1, heq⟩ := ih (p + 1) f 1 (by omega) hdrop1
    refine ⟨w1, ?_⟩
    have e1 : f + 1 - (n + 1) = f - n := by omega
    have e2 : p + (n + 1) = p + 1 + n := by omega
    rw [e1, e2, ← heq]
    conv_lhs => unfold lexTagInside
    rw [next_at ini inp p w its p 0x20 _ hdrop0 (by omega)]
    simp [eof, lexer.ignore]

theorem lexTagInside_close (ini : stateFn) (inp : GoString) (st q : Nat) (w : Int)
    (its : List item) (fuel : Nat) (t : GoString) (hf : 0 < fuel) (hst : st ≤ q)
    (hdrop : inp.drop q = 0x2F :: 0x3E :: t) :
    lexTagInside fuel ⟨ini, inp, st, q, w, its⟩ =
      .ok (none, ⟨ini, inp, ((q + 1 + 1 : Nat) : Int), ((q + 1 + 1 : Nat) : Int), 1,
        its ++ [⟨.tokenTagEndDash, (inp.drop st).take (q + 1 + 1 - st)⟩]⟩) := by
  obtain ⟨f, rfl⟩ : ∃ f, fuel = f + 1 := ⟨fuel - 1, by omega⟩
  have hdrop1 : inp.drop (q + 1) = 0x3E :: t := by
    rw [← List.drop_drop, hdrop]
    rfl
  have hlt := drop_lt_length hdrop1
  unfold lexTagInside
  rw [next_at ini inp st w its q 0x2F _ hdrop (by omega)]
  simp only [eof, if_true, if_false, Nat.reduceEqDiff]
  rw [next_at ini inp st 1 its (q + 1) 0x3E _ hdrop1 (by omega)]
  simp only [ne_eq, not_true_eq_false, if_false]
  rw [emit_at ini inp st (q + 1 + 1) 1 its .tokenTagEndDash (by omega) (by omega)]

theorem lexInit_start (c : Nat) (t : GoString) (hc : c < 0x80) (h0 : c ≠ 0) :
    lexInit (newLexer (c :: t)) = .ok (some .lexCommon, ⟨.lexInit, c :: t, 0, 0, 1, []⟩) := by
  have hn := next_at .lexInit (c :: t) 0 0 [] 0 c t rfl hc
  unfold lexInit lexer.peek newLexer
  simp only [Nat.cast_zero] at hn
  rw [hn]
  simp [eof, h0, lexer.backup]

theorem str_lt : str "<" = [0x3C] := rfl

theorem str_slash_gt : str "/>" = [0x2F, 0x3E] := rfl

theorem lexTagName_run (tbl : UnicodeTables) (ini : stateFn) (inp name rest : GoString)
    (w : Int) (its : List item) (fuel p : Nat) (d : Nat) (t : GoString)
    (hf : name.length < fuel) (hrest : rest = d :: t) (hd : d = 0x20 ∨ d = 0x2F)
    (hall : (runes name.length name).all (isValidChar tbl) = true)
    (hdrop : inp.drop p = name ++ rest) :
    lexTagName tbl fuel ⟨ini, inp, p, p, w, its⟩ =
      .ok (some .lexTagInside,
        ⟨ini, inp, ((p + name.length : Nat) : Int), ((p + name.length : Nat) : Int), 1,
          its ++ [⟨.tokenTagName, name⟩]⟩) := by
  have hr : ∀ c t, rest = c :: t → c < 0x80 := by
    intro c t1 h
    rw [hrest] at h
    cases h
    omega
  obtain ⟨w1, fuel1, hpos, heq⟩ :=
    lexTagName_skip tbl ini inp rest p its hr name.length name p fuel w le_rfl hf hall hdrop
  have hdrop2 : inp.drop (p + name.length) = d :: t := by
    rw [← List.drop_drop, hdrop, List.drop_left, hrest]
  have hval : (inp.drop p).take (p + name.length - p) = name := by
    rw [hdrop, Nat.add_sub_cancel_left, List.take_left]
  rw [heq, lexTagName_delim tbl ini inp p (p + name.length) w1 its fuel1 d t hpos (by omega)
    hdrop2 hd, hval]

theorem lex_selfclosing (tbl : UnicodeTables) (name : GoString) (n : Nat)
    (h : tagNameGrammar tbl name = true) :
    NewLexer tbl (0x3C :: (name ++ (List.replicate n 0x20 ++ [0x2F, 0x3E]))) =
      .ok [⟨.tokenTagBegin, [0x3C]⟩, ⟨.tokenTagName, name⟩, ⟨.tokenTagEndDash, [0x2F, 0x3E]⟩] := by
  obtain ⟨hne, hfirst, hall⟩ := tagNameGrammar_runes h
  obtain ⟨d, t, hrest, hd⟩ : ∃ d t, List.replicate n 0x20 ++ [0x2F, 0x3E] = d :: t ∧
      (d = 0x20 ∨ d = 0x2F) := by
    cases n with
    | zero => exact ⟨_, _, rfl, Or.inr rfl⟩
    | succ k => exact ⟨_, _, rfl, Or.inl rfl⟩
  have hr : ∀ c t1, List.replicate n 0x20 ++ [0x2F, 0x3E] = c :: t1 → c < 0x80 := by
    intro c t1 e
    rw [hrest] at e
    cases e
    omega
  generalize hinp : 0x3C :: (name ++ (List.replicate n 0x20 ++ [0x2F, 0x3E])) = inp
  have hlen : inp.length = name.length + n + 3 := by
    rw [← hinp]
    simp
    omega
  have h1 : lexInit (newLexer inp) = .ok (some .lexCommon, ⟨.lexInit, inp, 0, 0, 1, []⟩) := by
    rw [← hinp]
    exact lexInit_start _ _ (by omega) (by omega)
  have h2 := lexCommon_open tbl .lexInit inp 0 0 1 [] (inp.length + 1) name _ (by omega) le_rfl
    (by rw [← hinp]; rfl) hne hr hfirst
  have hv2 : (inp.drop 0).take (0 + 1 - 0) = [0x3C] := by
    rw [← hinp]
    rfl
  rw [hv2] at h2
  have h3 := lexTagName_run tbl .lexInit inp name _ ((DecodeRuneInString name).2 : Nat)
    ([] ++ [⟨.tokenTagBegin, [0x3C]⟩]) (inp.length + 1) (0 + 1) d t (by omega) hrest hd hall
    (by rw [← hinp]; rfl)
  have hdrop4 : inp.drop (0 + 1 + name.length) = List.replicate n 0x20 ++ [0x2F, 0x3E] := by
    rw [← hinp, ← List.drop_drop]
    simp
  obtain ⟨w4, h4⟩ := lexTagInside_spaces .lexInit inp [0x2F, 0x3E]
    ([] ++ [⟨.tokenTagBegin, [0x3C]⟩] ++ [⟨.tokenTagName, name⟩]) n (0 + 1 + name.length)
    (inp.length + 1) 1 (by omega) hdrop4
  have hdrop5 : inp.drop (0 + 1 + name.length + n) = [0x2F, 0x3E] := by
    rw [← List.drop_drop, hdrop4]
    have hl := List.drop_left (List.replicate n 0x20) [0x2F, 0x3E]
    rwa [List.length_replicate] at hl
  have h5 := lexTagInside_close .lexInit inp (0 + 1 + name.length + n) (0 + 1 + name.length + n)
    w4 ([] ++ [⟨.tokenTagBegin, [0x3C]⟩] ++ [⟨.tokenTagName, name⟩]) (inp.length + 1 - n) []
    (by omega) le_rfl hdrop5
  have hv5 : (inp.drop (0 + 1 + name.length + n)).take
      (0 + 1 + name.length + n + 1 + 1 - (0 + 1 + name.length + n)) = [0x2F, 0x3E] := by
    rw [hdrop5]
    have e : 0 + 1 + name.length + n + 1 + 1 - (0 + 1 + name.length + n) = 2 := by omega
    rw [e]
    rfl
  rw [hv5] at h5
  simp only [Nat.cast_zero] at h2
  unfold NewLexer lexer.run
  have hini : (newLexer inp).init = .lexInit := rfl
  simp only [hini, runFrom, stateFn.call, h1, h2, h3, h4, h5]
  rfl

theorem lex_unterminated (tbl : UnicodeTables) (name : GoString)
    (h : tagNameGrammar tbl name = true) :
    NewLexer tbl (0x3C :: name) =
      .ok [⟨.tokenTagBegin, [0x3C]⟩, ⟨.tokenError, Sprintf msgEOF []⟩] := by
  obtain ⟨hne, hfirst, hall⟩ := tagNameGrammar_runes h
  have hr : ∀ c t1, ([] : GoString) = c :: t1 → c < 0x80 := by
    intro c t1 e
    cases e
  generalize hinp : 0x3C :: name = inp
  have hlen : inp.length = name.length + 1 := by
    rw [← hinp]
    rfl
  have h1 : lexInit (newLexer inp) = .ok (some .lexCommon, ⟨.lexInit, inp, 0, 0, 1, []⟩) := by
    rw [← hinp]
    exact lexInit_start _ _ (by omega) (by omega)
  have h2 := lexCommon_open tbl .lexInit inp 0 0 1 [] (inp.length + 1) name [] (by omega) le_rfl
    (by rw [← hinp]; simp) hne hr hfirst
  have hv2 : (inp.drop 0).take (0 + 1 - 0) = [0x3C] := by
    rw [← hinp]
    rfl
  rw [hv2] at h2
  obtain ⟨w3, fuel3, hpos3, h3⟩ := lexTagName_skip tbl .lexInit inp [] ((0 + 1 : Nat) : Int)
    ([] ++ [⟨.tokenTagBegin, [0x3C]⟩]) hr name.length name (0 + 1) (inp.length + 1)
    ((DecodeRuneInString name).2 : Nat) le_rfl (by omega) hall (by rw [← hinp]; simp)
  have h4 := lexTagName_eof tbl .lexInit inp ((0 + 1 : Nat) : Int) (0 + 1 + name.length) w3
    ([] ++ [⟨.tokenTagBegin, [0x3C]⟩]) fuel3 hpos3 (by omega)
  simp only [Nat.cast_zero] at h2
  unfold NewLexer lexer.run
  have hini : (newLexer inp).init = .lexInit := rfl
  simp only [hini, runFrom, stateFn.call, h1, h2, h3, h4]
  rfl

theorem lex_declaration (tbl : UnicodeTables) (rest : GoString) :
    NewLexer tbl (0x3C :: 0x3F :: rest) = .ok [⟨.tokenError, Sprintf msgDecl []⟩] := by
  have h1 := lexInit_start 0x3C (0x3F :: rest) (by omega) (by omega)
  have n1 := next_at .lexInit (0x3C :: 0x3F :: rest) 0 1 [] 0 0x3C _ rfl (by omega)
  have n2 := next_at .lexInit (0x3C :: 0x3F :: rest) 0 1 [] (0 + 1) 0x3F _ rfl (by omega)
  simp only [Nat.cast_zero] at n1
  have h2 : lexCommon tbl ((0x3C :: 0x3F :: rest).length + 1)
      ⟨.lexInit, 0x3C :: 0x3F :: rest, 0, 0, 1, []⟩ =
      .ok (none, ⟨.lexInit, 0x3C :: 0x3F :: rest, 0, ((0 + 1 + 1 : Nat) : Int), 1,
        [] ++ [⟨.tokenError, Sprintf msgDecl []⟩]⟩) := by
    unfold lexCommon
    rw [n1]
    simp only [eof, if_true, if_false, Nat.reduceEqDiff]
    rw [n2]
    simp [eof, lexer.errorf]
  unfold NewLexer lexer.run
  have hini : (newLexer (0x3C :: 0x3F :: rest)).init = .lexInit := rfl
  simp only [hini, runFrom, stateFn.call, h1, h2]
  rfl

theorem lex_comment (tbl : UnicodeTables) (rest : GoString) :
    NewLexer tbl (0x3C :: 0x21 :: rest) = .ok [⟨.tokenError, Sprintf msgComment []⟩] := by
  have h1 := lexInit_start 0x3C (0x21 :: rest) (by omega) (by omega)
  have n1 := next_at .lexInit (0x3C :: 0x21 :: rest) 0 1 [] 0 0x3C _ rfl (by omega)
  have n2 := next_at .lexInit (0x3C :: 0x21 :: rest) 0 1 [] (0 + 1) 0x21 _ rfl (by omega)
  simp only [Nat.cast_zero] at n1
  have h2 : lexCommon tbl ((0x3C :: 0x21 :: rest).length + 1)
      ⟨.lexInit, 0x3C :: 0x21 :: rest, 0, 0, 1, []⟩ =
      .ok (none, ⟨.lexInit, 0x3C :: 0x21 :: rest, 0, ((0 + 1 + 1 : Nat) : Int), 1,
        [] ++ [⟨.tokenError, Sprintf msgComment []⟩]⟩) := by
    unfold lexCommon
    rw [n1]
    simp only [eof, if_true, if_false, Nat.reduceEqDiff]
    rw [n2]
    simp [eof, lexer.errorf]
  unfold NewLexer lexer.run
  have hini : (newLexer (0x3C :: 0x21 :: rest)).init = .lexInit := rfl
  simp only [hini, runFrom, stateFn.call, h1, h2]
  rfl

/-! ## More fuel does not change a result -/

theorem lexCommon_mono (tbl : UnicodeTables) (fuel : Nat) :
    ∀ (fuel1 : Nat) (l : lexer) (r : Option stateFn × lexer),
      lexCommon tbl fuel l = .ok r → fuel ≤ fuel1 → lexCommon tbl fuel1 l = .ok r := by
  induction fuel with
  | zero =>
    intro fuel1 l r h
    simp [lexCommon] at h
  | succ n ih =>
    intro fuel1 l r h hle
    obtain ⟨m, rfl⟩ : ∃ m, fuel1 = m + 1 := ⟨fuel1 - 1, by omega⟩
    unfold lexCommon at h ⊢
    cases hn : l.next with
    | ok p =>
      rw [hn] at h
      simp only at h ⊢
      split_ifs at h ⊢
      all_goals first
        | exact h
        | exact ih m _ _ h (by omega)
    | panic => rw [hn] at h; simp at h
    | outOfFuel => rw [hn] at h; simp at h

theorem lexTagName_mono (tbl : UnicodeTables) (fuel : Nat) :
    ∀ (fuel1 : Nat) (l : lexer) (r : Option stateFn × lexer),
      lexTagName tbl fuel l = .ok r → fuel ≤ fuel1 → lexTagName tbl fuel1 l = .ok r := by
  induction fuel with
  | zero =>
    intro fuel1 l r h
    simp [lexTagName] at h
  | succ n ih =>
    intro fuel1 l r h hle
    obtain ⟨m, rfl⟩ : ∃ m, fuel1 = m + 1 := ⟨fuel1 - 1, by omega⟩
    unfold lexTagName at h ⊢
    cases hn : l.next with
    | ok p =>
      rw [hn] at h
      simp only at h ⊢
      split_ifs at h ⊢
      all_goals first
        | exact h
        | exact ih m _ _ h (by omega)
    | panic => rw [hn] at h; simp at h
    | outOfFuel => rw [hn] at h; simp at h

theorem lexTagInside_mono (fuel : Nat) :
    ∀ (fuel1 : Nat) (l : lexer) (r : Option stateFn × lexer),
      lexTagInside fuel l = .ok r → fuel ≤ fuel1 → lexTagInside fuel1 l = .ok r := by
  induction fuel with
  | zero =>
    intro fuel1 l r h
    simp [lexTagInside] at h
  | succ n ih =>
    intro fuel1 l r h hle
    obtain ⟨m, rfl⟩ : ∃ m, fuel1 = m + 1 := ⟨fuel1 - 1, by omega⟩
    unfold lexTagInside at h ⊢
    cases hn : l.next with
    | ok p =>
      rw [hn] at h
      simp only at h ⊢
      split_ifs at h ⊢
      all_goals first
        | exact h
        | exact ih m _ _ h (by omega)
    | panic => rw [hn] at h; simp at h
    | outOfFuel => rw [hn] at h; simp at h

theorem call_mono (tbl : UnicodeTables) (st : stateFn) (fuel fuel1 : Nat) (l : lexer)
    (r : Option stateFn × lexer) (h : st.call tbl fuel l = .ok r) (hle : fuel ≤ fuel1) :
    st.call tbl fuel1 l = .ok r := by
  cases st with
  | lexInit => exact h
  | lexCommon => exact lexCommon_mono tbl fuel fuel1 l r h hle
  | lexTagName => exact lexTagName_mono tbl fuel fuel1 l r h hle
  | lexTagInside => exact lexTagInside_mono fuel fuel1 l r h hle

theorem runFrom_mono (tbl : UnicodeTables) (fuel fuel1 : Nat) (hle : fuel ≤ fuel1)
    (steps : Nat) :
    ∀ (steps1 : Nat) (st : Option stateFn) (l r : lexer),
      runFrom tbl fuel steps st l = .ok r → steps ≤ steps1 →
      runFrom tbl fuel1 steps1 st l = .ok r := by
  induction steps with
  | zero =>
    intro steps1 st l r h _
    cases st with
    | none =>
      cases steps1 <;> simpa [runFrom] using h
    | some s => simp [runFrom] at h
  | succ k ih =>
    intro steps1 st l r h hs
    cases st with
    | none =>
      cases steps1 <;> simpa [runFrom] using h
    | some s =>
      obtain ⟨m, rfl⟩ : ∃ m, steps1 = m + 1 := ⟨steps1 - 1, by omega⟩
      simp only [runFrom] at h ⊢
      cases hc : s.call tbl fuel l with
      | ok p =>
        rw [hc] at h
        rw [call_mono tbl s fuel fuel1 l p hc hle]
        exact ih m _ _ _ h (by omega)
      | panic => rw [hc] at h; simp at h
      | outOfFuel => rw [hc] at h; simp at h

/-! ## The invariant after every call of the scanner -/

theorem emit_inv {l : lexer} (h : l.inv) (typ : itemType) :
    ∃ l1, l.emit typ = .ok l1 ∧ l1.inv := by
  obtain ⟨v, hv⟩ := emit_spec l h typ
  obtain ⟨h0, h1, h2⟩ := h
  exact ⟨_, hv, ⟨by simp only; omega, le_refl _, h2⟩⟩

theorem backup_inv {r : Nat} {l l1 : lexer} (h : l.inv) (h1 : l1.inv)
    (hst : l1.start = l.start)
    (hc : (r = eof ∧ l1 = l) ∨ (l.pos < l1.pos ∧ l1.width = l1.pos - l.pos)) (hr : r ≠ eof) :
    l1.backup.inv := by
  rcases hc with ⟨e, -⟩ | ⟨hlt, hw⟩
  · exact absurd e hr
  · obtain ⟨a0, a1, a2⟩ := h
    obtain ⟨b0, b1, b2⟩ := h1
    refine ⟨?_, ?_, ?_⟩ <;> simp only [lexer.backup] <;> omega

theorem lexInitT_spec (l : lexer) (h : l.inv) (hw : l.width = 0) :
    ∃ res tr, lexInitT l = .ok (res, tr) ∧ lexInit l = .ok res ∧ ∀ a ∈ tr, lexer.inv a := by
  obtain ⟨r, l1, hn, -, hin, hst, hit, hle, hc⟩ := next_spec l h
  have hinv1 : l1.inv := next_inv h hst hin hle hc
  have hinv : l1.backup.inv := by
    obtain ⟨h0, h1, h2⟩ := h
    rcases hc with ⟨-, rfl⟩ | ⟨hlt, hwd⟩
    · refine ⟨h0, ?_, ?_⟩ <;> simp only [lexer.backup, hw] <;> omega
    · refine ⟨?_, ?_, ?_⟩ <;> simp only [lexer.backup, hst, hin, hwd] <;> omega
  have hall : ∀ a ∈ [l1, l1.backup], lexer.inv a := by
    intro a ha
    simp only [List.mem_cons, List.mem_singleton, List.not_mem_nil, or_false] at ha
    rcases ha with rfl | rfl
    · exact hinv1
    · exact hinv
  unfold lexInitT lexInit lexer.peek
  rw [hn]
  simp only
  by_cases hr : r = eof
  · rw [if_pos hr, if_pos hr]
    exact ⟨_, _, rfl, rfl, hall⟩
  · rw [if_neg hr, if_neg hr]
    exact ⟨_, _, rfl, rfl, hall⟩

theorem mem_inv1 {a : lexer} (ha : a.inv) : ∀ x ∈ [a], lexer.inv x := by
  intro x hx
  simp only [List.mem_singleton] at hx
  exact hx ▸ ha

theorem mem_inv2 {a b : lexer} (ha : a.inv) (hb : b.inv) : ∀ x ∈ [a, b], lexer.inv x := by
  intro x hx
  simp only [List.mem_cons, List.mem_singleton, List.not_mem_nil, or_false] at hx
  rcases hx with rfl | rfl
  · exact ha
  · exact hb

theorem mem_inv3 {a b c : lexer} (ha : a.inv) (hb : b.inv) (hc : c.inv) :
    ∀ x ∈ [a, b, c], lexer.inv x := by
  intro x hx
  simp only [List.mem_cons, List.mem_singleton, List.not_mem_nil, or_false] at hx
  rcases hx with rfl | rfl | rfl
  · exact ha
  · exact hb
  · exact hc

theorem mem_inv_cons {a : lexer} {tr : List lexer} (ha : a.inv) (ht : ∀ x ∈ tr, lexer.inv x) :
    ∀ x ∈ a :: tr, lexer.inv x := by
  intro x hx
  rcases List.mem_cons.mp hx with rfl | h
  · exact ha
  · exact ht x h

theorem lexCommonT_spec (tbl : UnicodeTables) (fuel : Nat) :
    ∀ l : lexer, l.inv → (l.input.length - l.pos).toNat < fuel →
      ∃ res tr, lexCommonT tbl fuel l = .ok (res, tr) ∧ lexCommon tbl fuel l = .ok res ∧
        ∀ a ∈ tr, lexer.inv a := by
  induction fuel with
  | zero => intro l _ hf; omega
  | succ n ih =>
    intro l h hf
    obtain ⟨r, l1, hn, -, hin, hst, hit, hle, hc⟩ := next_spec l h
    have hinv1 : l1.inv := next_inv h hst hin hle hc
    unfold lexCommonT lexCommon
    rw [hn]
    simp only
    by_cases hr : r = eof
    · rw [if_pos hr, if_pos hr]
      exact ⟨_, _, rfl, rfl, mem_inv1 hinv1⟩
    · rw [if_neg hr, if_neg hr]
      have hadv : l.pos < l1.pos := by
        rcases hc with ⟨h1, -⟩ | ⟨h1, -⟩
        · exact absurd h1 hr
        · exact h1
      by_cases hlt : r = 0x3C
      · rw [if_pos hlt, if_pos hlt]
        obtain ⟨s, l2, hn2, -, hin2, hst2, hit2, hle2, hc2⟩ := next_spec l1 hinv1
        have hinv2 : l2.inv := next_inv hinv1 hst2 hin2 hle2 hc2
        rw [hn2]
        simp only
        by_cases hs1 : s = eof
        · rw [if_pos hs1, if_pos hs1]
          exact ⟨_, _, rfl, rfl, mem_inv2 hinv1 hinv2⟩
        · rw [if_neg hs1, if_neg hs1]
          by_cases hs2 : s = 0x2F
          · rw [if_pos hs2, if_pos hs2]
            obtain ⟨l3, he, hinv3⟩ := emit_inv hinv2 .tokenTagBeginDash
            rw [he]
            exact ⟨_, _, rfl, rfl, mem_inv3 hinv1 hinv2 hinv3⟩
          · rw [if_neg hs2, if_neg hs2]
            by_cases hs3 : s = 0x3F
            · rw [if_pos hs3, if_pos hs3]
              exact ⟨_, _, rfl, rfl, mem_inv2 hinv1 hinv2⟩
            · rw [if_neg hs3, if_neg hs3]
              by_cases hs4 : s = 0x21
              · rw [if_pos hs4, if_pos hs4]
                exact ⟨_, _, rfl, rfl, mem_inv2 hinv1 hinv2⟩
              · rw [if_neg hs4, if_neg hs4]
                by_cases hs5 : isValidFirstChar tbl s = true
                · rw [if_pos hs5, if_pos hs5]
                  have hb : l2.backup.inv := backup_inv hinv1 hinv2 hst2 hc2 hs1
                  obtain ⟨l3, he, hinv3⟩ := emit_inv hb .tokenTagBegin
                  rw [he]
                  exact ⟨_, _, rfl, rfl,
                    mem_inv_cons hinv1 (mem_inv3 hinv2 hb hinv3)⟩
                · rw [if_neg hs5, if_neg hs5]
                  exact ⟨_, _, rfl, rfl, mem_inv2 hinv1 hinv2⟩
      · rw [if_neg hlt, if_neg hlt]
        obtain ⟨res, tr, hT, hU, hI⟩ := ih l1 hinv1 (by rw [hin]; omega)
        rw [hT]
        simp only [ite_self]
        exact ⟨res, l1 :: tr, rfl, hU, mem_inv_cons hinv1 hI⟩

theorem lexTagNameT_spec (tbl : UnicodeTables) (fuel : Nat) :
    ∀ l : lexer, l.inv → (l.input.length - l.pos).toNat < fuel →
      ∃ res tr, lexTagNameT tbl fuel l = .ok (res, tr) ∧ lexTagName tbl fuel l = .ok res ∧
        ∀ a ∈ tr, lexer.inv a := by
  induction fuel with
  | zero => intro l _ hf; omega
  | succ n ih =>
    intro l h hf
    obtain ⟨r, l1, hn, -, hin, hst, hit, hle, hc⟩ := next_spec l h
    have hinv1 : l1.inv := next_inv h hst hin hle hc
    unfold lexTagNameT lexTagName
    rw [hn]
    simp only
    by_cases hr : r = eof
    · rw [if_pos hr, if_pos hr]
      exact ⟨_, _, rfl, rfl, mem_inv1 hinv1⟩
    · rw [if_neg hr, if_neg hr]
      have hadv : l.pos < l1.pos := by
        rcases hc with ⟨h1, -⟩ | ⟨h1, -⟩
        · exact absurd h1 hr
        · exact h1
      by_cases hd : r = 0x20 ∨ r = 0x2F
      · rw [if_pos hd, if_pos hd]
        have hb : l1.backup.inv := backup_inv h hinv1 hst hc hr
        obtain ⟨l2, he, hinv2⟩ := emit_inv hb .tokenTagName
        rw [he]
        exact ⟨_, _, rfl, rfl, mem_inv3 hinv1 hb hinv2⟩
      · rw [if_neg hd, if_neg hd]
        by_cases hv : (!isValidChar tbl r) = true
        · rw [if_pos hv, if_pos hv]
          exact ⟨_, _, rfl, rfl, mem_inv1 hinv1⟩
        · rw [if_neg hv, if_neg hv]
          obtain ⟨res, tr, hT, hU, hI⟩ := ih l1 hinv1 (by rw [hin]; omega)
          rw [hT]
          exact ⟨res, l1 :: tr, rfl, hU, mem_inv_cons hinv1 hI⟩

theorem lexTagInsideT_spec (fuel : Nat) :
    ∀ l : lexer, l.inv → (l.input.length - l.pos).toNat < fuel →
      ∃ res tr, lexTagInsideT fuel l = .ok (res, tr) ∧ lexTagInside fuel l = .ok res ∧
        ∀ a ∈ tr, lexer.inv a := by
  induction fuel with
  | zero => intro l _ hf; omega
  | succ n ih =>
    intro l h hf
    obtain ⟨r, l1, hn, -, hin, hst, hit, hle, hc⟩ := next_spec l h
    have hinv1 : l1.inv := next_inv h hst hin hle hc
    unfold lexTagInsideT lexTagInside
    rw [hn]
    simp only
    by_cases hr : r = eof
    · rw [if_pos hr, if_pos hr]
      exact ⟨_, _, rfl, rfl, mem_inv1 hinv1⟩
    · rw [if_neg hr, if_neg hr]
      have hadv : l.pos < l1.pos := by
        rcases hc with ⟨h1, -⟩ | ⟨h1, -⟩
        · exact absurd h1 hr
        · exact h1
      by_cases hsp : r = 0x20
      · rw [if_pos hsp, if_pos hsp]
        have hig : l1.ignore.inv := by
          obtain ⟨b0, b1, b2⟩ := hinv1
          exact ⟨by simp only [lexer.ignore]; omega, le_refl _, b2⟩
        obtain ⟨res, tr, hT, hU, hI⟩ :=
          ih l1.ignore hig (by simp only [lexer.ignore]; rw [hin]; omega)
        rw [hT]
        exact ⟨res, l1 :: l1.ignore :: tr, rfl, hU,
          mem_inv_cons hinv1 (mem_inv_cons hig hI)⟩
      · rw [if_neg hsp, if_neg hsp]
        by_cases hsl : r = 0x2F
        · rw [if_pos hsl, if_pos hsl]
          obtain ⟨s, l2, hn2, -, hin2, hst2, hit2, hle2, hc2⟩ := next_spec l1 hinv1
          have hinv2 : l2.inv := next_inv hinv1 hst2 hin2 hle2 hc2
          rw [hn2]
          simp only
          by_cases hs : s ≠ 0x3E
          · rw [if_pos hs, if_pos hs]
            exact ⟨_, _, rfl, rfl, mem_inv2 hinv1 hinv2⟩
          · rw [if_neg hs, if_neg hs]
            obtain ⟨l3, he, hinv3⟩ := emit_inv hinv2 .tokenTagEndDash
            rw [he]
            exact ⟨_, _, rfl, rfl, mem_inv3 hinv1 hinv2 hinv3⟩
        · rw [if_neg hsl, if_neg hsl]
          by_cases hgt : r = 0x3E
          · rw [if_pos hgt, if_pos hgt]
            obtain ⟨l2, he, hinv2⟩ := emit_inv hinv1 .tokenTagEnd
            rw [he]
            exact ⟨_, _, rfl, rfl, mem_inv2 hinv1 hinv2⟩
          · rw [if_neg hgt, if_neg hgt]
            obtain ⟨res, tr, hT, hU, hI⟩ := ih l1 hinv1 (by rw [hin]; omega)
            rw [hT]
            exact ⟨res, l1 :: tr, rfl, hU, mem_inv_cons hinv1 hI⟩

theorem callT_spec (tbl : UnicodeTables) (st : stateFn) (l : lexer) (fuel : Nat) (h : l.inv)
    (hw : st = .lexInit → l.width = 0) (hf : l.input.length < fuel) :
    ∃ res tr, st.callT tbl fuel l = .ok (res, tr) ∧ st.call tbl fuel l = .ok res ∧
      ∀ a ∈ tr, lexer.inv a := by
  have hfuel : (l.input.length - l.pos).toNat < fuel := by
    obtain ⟨a0, a1, a2⟩ := h
    omega
  cases st with
  | lexInit => exact lexInitT_spec l h (hw rfl)
  | lexCommon => exact lexCommonT_spec tbl fuel l h hfuel
  | lexTagName => exact lexTagNameT_spec tbl fuel l h hfuel
  | lexTagInside => exact lexTagInsideT_spec fuel l h hfuel

theorem runFromT_spec (tbl : UnicodeTables) (fuel : Nat) (steps : Nat) :
    ∀ (st : Option stateFn) (l : lexer), l.inv → (st = some .lexInit → l.width = 0) →
      l.input.length < fuel → rank st ≤ steps →
      ∃ lf tr, runFromT tbl fuel steps st l = .ok (lf, tr) ∧
        runFrom tbl fuel steps st l = .ok lf ∧ ∀ a ∈ tr, lexer.inv a := by
  induction steps with
  | zero =>
    intro st l _ _ _ hr
    cases st with
    | none => exact ⟨l, [], by simp [runFromT], by simp [runFrom], by simp⟩
    | some s => cases s <;> simp [rank] at hr
  | succ k ih =>
    intro st l h hw hf hr
    cases st with
    | none => exact ⟨l, [], by simp [runFromT], by simp [runFrom], by simp⟩
    | some s =>
      obtain ⟨res, tr, hT, hU, hI⟩ :=
        callT_spec tbl s l fuel h (fun e => hw (congrArg some e)) hf
      obtain ⟨st1, l1, new, hcall, hinv1, hin1, -, hmem⟩ :=
        call_post tbl s l fuel h (fun e => hw (congrArg some e)) hf
      have hres : res = (st1, l1) := by
        rw [hU] at hcall
        cases hcall
        rfl
      subst hres
      obtain ⟨hne, hrk, -⟩ := stepKinds_runKinds s _ hmem
      obtain ⟨lf, tr2, hT2, hU2, hI2⟩ :=
        ih st1 l1 hinv1 (fun e => absurd e hne) (by rw [hin1]; exact hf) (by
          have : rank st1 < rank (some s) := hrk
          omega)
      refine ⟨lf, tr ++ tr2, ?_, ?_, ?_⟩
      · simp only [runFromT, hT, hT2]
      · simp only [runFrom, hU, hU2]
      · intro a ha
        rcases List.mem_append.mp ha with h1 | h1
        · exact hI a h1
        · exact hI2 a h1

/-! ## An input and its extensions -/

theorem decode_low {b : Nat} (u : GoString) (h : b < 0x80) :
    DecodeRuneInString (b :: u) = (b, 1) := by
  simp [DecodeRuneInString, h]

theorem first_cases {b sz lo hi : Nat} (h : first b = some (sz, lo, hi)) :
    hi ≤ 0xBF ∧ 0x80 ≤ lo ∧
      ((sz = 2 ∧ 0xC2 ≤ b ∧ b < 0xE0) ∨
        (sz = 3 ∧ 0xE0 ≤ b ∧ b < 0xF0 ∧ (b = 0xE0 → lo = 0xA0)) ∨
        (sz = 4 ∧ 0xF0 ≤ b ∧ b ≤ 0xF4 ∧ (b = 0xF0 → lo = 0x90))) := by
  unfold first at h
  split_ifs at h <;> simp at h <;> omega

theorem decode_high {b : Nat} (u : GoString) (h : 0x80 ≤ b) :
    0x80 ≤ (DecodeRuneInString (b :: u)).1 := by
  have h0 : ¬ b < 0x80 := by omega
  unfold DecodeRuneInString
  cases hf : first b with
  | none => simp [h0, hf, RuneError]
  | some p =>
    obtain ⟨sz, lo, hi⟩ := p
    have hc := first_cases hf
    simp only [h0, if_false, hf]
    split_ifs <;> simp only [RuneError] <;> omega

theorem decode_append_low (u t : GoString) (hlow : ∃ b ∈ u, b < 0x80) :
    DecodeRuneInString (u ++ t) = DecodeRuneInString u := by
  rcases u with _ | ⟨b0, r⟩
  · simp at hlow
  · by_cases h0 : b0 < 0x80
    · rw [List.cons_append, decode_low _ h0, decode_low _ h0]
    · unfold DecodeRuneInString
      simp only [List.cons_append]
      cases hf : first b0 with
      | none => simp [h0, hf]
      | some p =>
        obtain ⟨sz, lo, hi⟩ := p
        have hsz := first_spec hf
        simp only [h0, if_false, hf]
        rcases r with _ | ⟨b1, _ | ⟨b2, _ | ⟨b3, t4⟩⟩⟩
        · simp at hlow
          omega
        · simp at hlow
          rcases t with _ | ⟨c, t1⟩
          · simp
          · simp
            split_ifs <;> first | rfl | omega
        · simp at hlow
          rcases t with _ | ⟨c, t1⟩
          · simp
          · simp
            split_ifs <;> first | rfl | omega
        · simp
          split_ifs <;> first | rfl | omega

theorem next_lt (l : lexer) (h0 : 0 ≤ l.pos) (hlt : l.pos < l.input.length) :
    l.next = .ok ((DecodeRuneInString (l.input.drop l.pos.toNat)).1,
      { l with width := ((DecodeRuneInString (l.input.drop l.pos.toNat)).2 : Nat),
               pos := l.pos + ((DecodeRuneInString (l.input.drop l.pos.toNat)).2 : Nat) }) := by
  obtain ⟨ini, inp, st, pos, w, its⟩ := l
  simp only at h0 hlt ⊢
  obtain ⟨p, rfl⟩ : ∃ p : Nat, pos = (p : Int) := ⟨pos.toNat, by omega⟩
  rw [next_of_lt ini inp st w its p (by omega)]
  simp

theorem extend_drop (s t : GoString) (p : Nat) (h : p ≤ s.length) :
    (s ++ t).drop p = s.drop p ++ t :=
  List.drop_append_of_le_length h

theorem next_extend (l : lexer) (t : GoString) (h0 : 0 ≤ l.pos) (hlt : l.pos < l.input.length)
    (hlow : ∃ b ∈ l.input.drop l.pos.toNat, b < 0x80) {r : Nat} {l1 : lexer}
    (hn : l.next = .ok (r, l1)) : (l.extend t).next = .ok (r, l1.extend t) := by
  rw [next_lt l h0 hlt] at hn
  have hlt2 : (l.extend t).pos < (l.extend t).input.length := by
    simp only [lexer.extend, List.length_append]
    omega
  rw [next_lt (l.extend t) h0 hlt2]
  have hd : (l.extend t).input.drop (l.extend t).pos.toNat = l.input.drop l.pos.toNat ++ t := by
    simp only [lexer.extend]
    exact extend_drop _ _ _ (by omega)
  rw [hd, decode_append_low _ t hlow]
  cases hn
  rfl

theorem emit_extend (l : lexer) (t : GoString) (typ : itemType) {l1 : lexer}
    (h : l.emit typ = .ok l1) : (l.extend t).emit typ = .ok (l1.extend t) := by
  unfold lexer.emit slice at h ⊢
  by_cases hc : 0 ≤ l.start ∧ l.start ≤ l.pos ∧ l.pos ≤ l.input.length
  · rw [if_pos hc] at h
    have hc2 : 0 ≤ (l.extend t).start ∧ (l.extend t).start ≤ (l.extend t).pos ∧
        (l.extend t).pos ≤ (l.extend t).input.length := by
      simp only [lexer.extend, List.length_append]
      omega
    rw [if_pos hc2]
    simp only at h ⊢
    cases h
    have hv : (List.drop l.start.toNat (l.input ++ t)).take (l.pos - l.start).toNat =
        (List.drop l.start.toNat l.input).take (l.pos - l.start).toNat := by
      rw [extend_drop _ _ _ (by omega)]
      apply List.take_append_of_le_length
      rw [List.length_drop]
      omega
    simp only [lexer.extend, hv]
  · rw [if_neg hc] at h
    simp at h

theorem errorf_extend (l : lexer) (t : GoString) (format : GoString) (args : List GoString) :
    (l.extend t).errorf format args =
      ((l.errorf format args).1, (l.errorf format args).2.extend t) := rfl

theorem errorf_items (l : lexer) (format : GoString) (args : List GoString) :
    (l.errorf format args).2.items = l.items ++ [⟨.tokenError, Sprintf format args⟩] := rfl

theorem next_high (l : lexer) (h : l.inv) (hh : ∀ b ∈ l.input.drop l.pos.toNat, 0x80 ≤ b) :
    ∃ r l1, l.next = .ok (r, l1) ∧ l1.inv ∧ l1.input = l.input ∧ l1.items = l.items ∧
      (∀ b ∈ l1.input.drop l1.pos.toNat, 0x80 ≤ b) ∧ (r = eof ∨ 0x80 ≤ r) := by
  obtain ⟨h0, h1, h2⟩ := h
  by_cases hge : (l.input.length : Int) ≤ l.pos
  · exact ⟨eof, l, next_of_ge l hge, ⟨h0, h1, h2⟩, rfl, rfl, hh, Or.inl rfl⟩
  · have hp0 : 0 ≤ l.pos := by omega
    have hlt : l.pos.toNat < l.input.length := by omega
    obtain ⟨b, u, hbu⟩ : ∃ b u, l.input.drop l.pos.toNat = b :: u := by
      cases hd : l.input.drop l.pos.toNat with
      | nil =>
        have := congrArg List.length hd
        simp at this
        omega
      | cons b u => exact ⟨b, u, rfl⟩
    have hw := decode_width (l.input.drop l.pos.toNat) (by rw [hbu]; simp)
    rw [List.length_drop] at hw
    have hb : 0x80 ≤ b := hh b (by rw [hbu]; simp)
    have hr : 0x80 ≤ (DecodeRuneInString (l.input.drop l.pos.toNat)).1 := by
      rw [hbu]
      exact decode_high u hb
    refine ⟨_, _, next_lt l hp0 (by omega), ⟨?_, ?_, ?_⟩, rfl, rfl, ?_, Or.inr hr⟩
    · simp only; omega
    · simp only; omega
    · simp only; omega
    · intro c hc
      simp only at hc
      have e : (l.pos + ((DecodeRuneInString (l.input.drop l.pos.toNat)).2 : Nat)).toNat =
          l.pos.toNat + (DecodeRuneInString (l.input.drop l.pos.toNat)).2 := by omega
      rw [e, ← List.drop_drop] at hc
      exact hh c (List.mem_of_mem_drop hc)

theorem lexTagInside_high (fuel : Nat) :
    ∀ (l : lexer) (res : Option stateFn × lexer), l.inv →
      (∀ b ∈ l.input.drop l.pos.toNat, 0x80 ≤ b) → lexTagInside fuel l = .ok res →
      res.1 = none ∧
        (res.2.items = l.items ∨ ∃ v, res.2.items = l.items ++ [⟨.tokenError, v⟩]) := by
  induction fuel with
  | zero =>
    intro l res _ _ h
    simp [lexTagInside] at h
  | succ n ih =>
    intro l res hinv hh h
    obtain ⟨r, l1, hn, hinv1, hin1, hit1, hh1, hr⟩ := next_high l hinv hh
    unfold lexTagInside at h
    rw [hn] at h
    simp only at h
    rcases hr with hr | hr
    · rw [if_pos hr] at h
      cases h
      exact ⟨rfl, Or.inr ⟨_, by rw [errorf_items, hit1]⟩⟩
    · have e0 : r ≠ eof := by unfold eof; omega
      have e1 : r ≠ 0x20 := by omega
      have e2 : r ≠ 0x2F := by omega
      have e3 : r ≠ 0x3E := by omega
      rw [if_neg e0, if_neg e1, if_neg e2, if_neg e3] at h
      have := ih l1 res hinv1 hh1 h
      rwa [hit1] at this

theorem lexTagName_high (tbl : UnicodeTables) (fuel : Nat) :
    ∀ (l : lexer) (res : Option stateFn × lexer), l.inv →
      (∀ b ∈ l.input.drop l.pos.toNat, 0x80 ≤ b) → lexTagName tbl fuel l = .ok res →
      res.1 = none ∧
        (res.2.items = l.items ∨ ∃ v, res.2.items = l.items ++ [⟨.tokenError, v⟩]) := by
  induction fuel with
  | zero =>
    intro l res _ _ h
    simp [lexTagName] at h
  | succ n ih =>
    intro l res hinv hh h
    obtain ⟨r, l1, hn, hinv1, hin1, hit1, hh1, hr⟩ := next_high l hinv hh
    unfold lexTagName at h
    rw [hn] at h
    simp only at h
    rcases hr with hr | hr
    · rw [if_pos hr] at h
      cases h
      exact ⟨rfl, Or.inr ⟨_, by rw [errorf_items, hit1]⟩⟩
    · have e0 : r ≠ eof := by unfold eof; omega
      have e1 : ¬ (r = 0x20 ∨ r = 0x2F) := by omega
      rw [if_neg e0, if_neg e1] at h
      split_ifs at h
      · cases h
        exact ⟨rfl, Or.inr ⟨_, by rw [errorf_items, hit1]⟩⟩
      · have := ih l1 res hinv1 hh1 h
        rwa [hit1] at this

theorem lexCommon_high (tbl : UnicodeTables) (fuel : Nat) :
    ∀ (l : lexer) (res : Option stateFn × lexer), l.inv →
      (∀ b ∈ l.input.drop l.pos.toNat, 0x80 ≤ b) → lexCommon tbl fuel l = .ok res →
      res.1 = none ∧
        (res.2.items = l.items ∨ ∃ v, res.2.items = l.items ++ [⟨.tokenError, v⟩]) := by
  induction fuel with
  | zero =>
    intro l res _ _ h
    simp [lexCommon] at h
  | succ n ih =>
    intro l res hinv hh h
    obtain ⟨r, l1, hn, hinv1, hin1, hit1, hh1, hr⟩ := next_high l hinv hh
    unfold lexCommon at h
    rw [hn] at h
    simp only at h
    rcases hr with hr | hr
    · rw [if_pos hr] at h
      cases h
      exact ⟨rfl, Or.inl hit1⟩
    · have e0 : r ≠ eof := by unfold eof; omega
      have e1 : r ≠ 0x3C := by omega
      rw [if_neg e0, if_neg e1] at h
      simp only [ite_self] at h
      have := ih l1 res hinv1 hh1 h
      rwa [hit1] at this

theorem call_high (tbl : UnicodeTables) (st : stateFn) (fuel : Nat) (l : lexer)
    (res : Option stateFn × lexer) (hst : st ≠ .lexInit) (hinv : l.inv)
    (hh : ∀ b ∈ l.input.drop l.pos.toNat, 0x80 ≤ b) (h : st.call tbl fuel l = .ok res) :
    res.1 = none ∧
      (res.2.items = l.items ∨ ∃ v, res.2.items = l.items ++ [⟨.tokenError, v⟩]) := by
  cases st with
  | lexInit => exact absurd rfl hst
  | lexCommon => exact lexCommon_high tbl fuel l res hinv hh h
  | lexTagName => exact lexTagName_high tbl fuel l res hinv hh h
  | lexTagInside => exact lexTagInside_high fuel l res hinv hh h

theorem not_good {its its1 : List item}
    (hbad : its1 = its ∨ ∃ v, its1 = its ++ [⟨.tokenError, v⟩])
    (hgood : ∃ tok : item, its1 = its ++ [tok] ∧ tok.typ ≠ .tokenError) : False := by
  obtain ⟨tok, h1, h2⟩ := hgood
  rcases hbad with h | ⟨v, h⟩
  · rw [h] at h1
    have := congrArg List.length h1
    simp at this
  · rw [h] at h1
    have := List.append_cancel_left h1
    simp only [List.cons.injEq, and_true] at this
    exact h2 (this ▸ rfl)

theorem low_pos {l : lexer} (hinv : l.inv) (hlow : ∃ b ∈ l.input.drop l.pos.toNat, b < 0x80) :
    0 ≤ l.pos ∧ l.pos < l.input.length := by
  obtain ⟨h0, h1, h2⟩ := hinv
  obtain ⟨b, hb, -⟩ := hlow
  have hl : 0 < (l.input.drop l.pos.toNat).length := List.length_pos_of_mem hb
  rw [List.length_drop] at hl
  omega

theorem next_ascii {l l1 : lexer} {r : Nat} (hinv : l.inv) (hn : l.next = .ok (r, l1))
    (hr : r ≠ eof) (hr2 : r < 0x80) : ∃ b ∈ l.input.drop l.pos.toNat, b < 0x80 := by
  by_contra hno
  push_neg at hno
  obtain ⟨r1, l2, hn1, -, -, -, -, hc⟩ := next_high l hinv hno
  rw [hn] at hn1
  cases hn1
  rcases hc with hc | hc
  · exact hr hc
  · omega

theorem next_extend_ascii {l l1 : lexer} {r : Nat} (t : GoString) (hinv : l.inv)
    (hn : l.next = .ok (r, l1)) (hr : r ≠ eof) (hr2 : r < 0x80) :
    (l.extend t).next = .ok (r, l1.extend t) := by
  have hlow := next_ascii hinv hn hr hr2
  obtain ⟨h0, hlt⟩ := low_pos hinv hlow
  exact next_extend l t h0 hlt hlow hn

theorem emit_match_extend (l : lexer) (t : GoString) (typ : itemType) (nxt : Option stateFn)
    (res : Option stateFn × lexer)
    (h : (match l.emit typ with
      | .ok l3 => Result.ok (nxt, l3)
      | .panic => .panic
      | .outOfFuel => .outOfFuel) = .ok res) :
    (match (l.extend t).emit typ with
      | .ok l3 => Result.ok (nxt, l3)
      | .panic => .panic
      | .outOfFuel => .outOfFuel) = .ok (res.1, res.2.extend t) := by
  cases he : l.emit typ with
  | ok l3 =>
    rw [he] at h
    cases h
    rw [emit_extend l t typ he]
  | panic => rw [he] at h; simp at h
  | outOfFuel => rw [he] at h; simp at h

theorem lexTagInside_extend (t : GoString) (fuel : Nat) :
    ∀ (l : lexer) (res : Option stateFn × lexer), l.inv → lexTagInside fuel l = .ok res →
      (∃ tok : item, res.2.items = l.items ++ [tok] ∧ tok.typ ≠ .tokenError) →
      lexTagInside fuel (l.extend t) = .ok (res.1, res.2.extend t) := by
  induction fuel with
  | zero =>
    intro l res _ h
    simp [lexTagInside] at h
  | succ n ih =>
    intro l res hinv h hgood
    have hlow : ∃ b ∈ l.input.drop l.pos.toNat, b < 0x80 := by
      by_contra hno
      push_neg at hno
      exact not_good (lexTagInside_high (n + 1) l res hinv hno h).2 hgood
    obtain ⟨h0, hlt⟩ := low_pos hinv hlow
    obtain ⟨r, l1, hn, -, hin, hst, hit, hle, hc⟩ := next_spec l hinv
    have hinv1 : l1.inv := next_inv hinv hst hin hle hc
    have hnx := next_extend l t h0 hlt hlow hn
    unfold lexTagInside at h ⊢
    rw [hn] at h
    rw [hnx]
    simp only at h ⊢
    by_cases hr : r = eof
    · rw [if_pos hr] at h
      cases h
      exact absurd hgood (fun hg => not_good (Or.inr ⟨_, by rw [errorf_items, hit]⟩) hg)
    · rw [if_neg hr] at h ⊢
      by_cases hsp : r = 0x20
      · rw [if_pos hsp] at h ⊢
        have hig : l1.ignore.inv := by
          obtain ⟨b0, b1, b2⟩ := hinv1
          exact ⟨by simp only [lexer.ignore]; omega, le_refl _, b2⟩
        exact ih l1.ignore res hig h (by
          obtain ⟨tok, e, ht⟩ := hgood
          exact ⟨tok, by rw [e, ← hit]; rfl, ht⟩)
      · rw [if_neg hsp] at h ⊢
        by_cases hsl : r = 0x2F
        · rw [if_pos hsl] at h ⊢
          obtain ⟨s, l2, hn2, -, hin2, hst2, hit2, hle2, hc2⟩ := next_spec l1 hinv1
          rw [hn2] at h
          simp only at h
          by_cases hs : s ≠ 0x3E
          · rw [if_pos hs] at h
            cases h
            exact absurd hgood (fun hg =>
              not_good (Or.inr ⟨_, by rw [errorf_items, hit2, hit]⟩) hg)
          · rw [if_neg hs] at h
            have hs1 : s = 0x3E := by omega
            rw [next_extend_ascii t hinv1 hn2 (by unfold eof; omega) (by omega)]
            simp only
            rw [if_neg hs]
            exact emit_match_extend l2 t _ _ res h
        · rw [if_neg hsl] at h ⊢
          by_cases hgt : r = 0x3E
          · rw [if_pos hgt] at h ⊢
            exact emit_match_extend l1 t _ _ res h
          · rw [if_neg hgt] at h ⊢
            exact ih l1 res hinv1 h (by
              obtain ⟨tok, e, ht⟩ := hgood
              exact ⟨tok, by rw [e, ← hit], ht⟩)

theorem lexTagName_extend (tbl : UnicodeTables) (t : GoString) (fuel : Nat) :
    ∀ (l : lexer) (res : Option stateFn × lexer), l.inv → lexTagName tbl fuel l = .ok res →
      (∃ tok : item, res.2.items = l.items ++ [tok] ∧ tok.typ ≠ .tokenError) →
      lexTagName tbl fuel (l.extend t) = .ok (res.1, res.2.extend t) := by
  induction fuel with
  | zero =>
    intro l res _ h
    simp [lexTagName] at h
  | succ n ih =>
    intro l res hinv h hgood
    have hlow : ∃ b ∈ l.input.drop l.pos.toNat, b < 0x80 := by
      by_contra hno
      push_neg at hno
      exact not_good (lexTagName_high tbl (n + 1) l res hinv hno h).2 hgood
    obtain ⟨h0, hlt⟩ := low_pos hinv hlow
    obtain ⟨r, l1, hn, -, hin, hst, hit, hle, hc⟩ := next_spec l hinv
    have hinv1 : l1.inv := next_inv hinv hst hin hle hc
    have hnx := next_extend l t h0 hlt hlow hn
    unfold lexTagName at h ⊢
    rw [hn] at h
    rw [hnx]
    simp only at h ⊢
    by_cases hr : r = eof
    · rw [if_pos hr] at h
      cases h
      exact absurd hgood (fun hg => not_good (Or.inr ⟨_, by rw [errorf_items, hit]⟩) hg)
    · rw [if_neg hr] at h ⊢
      by_cases hd : r = 0x20 ∨ r = 0x2F
      · rw [if_pos hd] at h ⊢
        exact emit_match_extend l1.backup t _ _ res h
      · rw [if_neg hd] at h ⊢
        by_cases hv : (!isValidChar tbl r) = true
        · rw [if_pos hv] at h
          cases h
          exact absurd hgood (fun hg => not_good (Or.inr ⟨_, by rw [errorf_items, hit]⟩) hg)
        · rw [if_neg hv] at h ⊢
          exact ih l1 res hinv1 h (by
            obtain ⟨tok, e, ht⟩ := hgood
            exact ⟨tok, by rw [e, ← hit], ht⟩)

theorem lexCommon_extend (tbl : UnicodeTables) (t : GoString) (fuel : Nat) :
    ∀ (l : lexer) (res : Option stateFn × lexer), l.inv → lexCommon tbl fuel l = .ok res →
      (∃ tok : item, res.2.items = l.items ++ [tok] ∧ tok.typ ≠ .tokenError) →
      (∃ b ∈ l.input.drop res.2.pos.toNat, b < 0x80) →
      lexCommon tbl fuel (l.extend t) = .ok (res.1, res.2.extend t) := by
  induction fuel with
  | zero =>
    intro l res _ h
    simp [lexCommon] at h
  | succ n ih =>
    intro l res hinv h hgood hnext
    have hlow : ∃ b ∈ l.input.drop l.pos.toNat, b < 0x80 := by
      by_contra hno
      push_neg at hno
      exact not_good (lexCommon_high tbl (n + 1) l res hinv hno h).2 hgood
    obtain ⟨h0, hlt⟩ := low_pos hinv hlow
    obtain ⟨r, l1, hn, -, hin, hst, hit, hle, hc⟩ := next_spec l hinv
    have hinv1 : l1.inv := next_inv hinv hst hin hle hc
    have hnx := next_extend l t h0 hlt hlow hn
    unfold lexCommon at h ⊢
    rw [hn] at h
    rw [hnx]
    simp only at h ⊢
    by_cases hr : r = eof
    · rw [if_pos hr] at h
      cases h
      exact absurd hgood (fun hg => not_good (Or.inl hit) hg)
    · rw [if_neg hr] at h ⊢
      by_cases hlt3 : r = 0x3C
      · rw [if_pos hlt3] at h ⊢
        obtain ⟨s, l2, hn2, -, hin2, hst2, hit2, hle2, hc2⟩ := next_spec l1 hinv1
        have hinv2 : l2.inv := next_inv hinv1 hst2 hin2 hle2 hc2
        rw [hn2] at h
        simp only at h
        have hbad : ∀ (format : GoString) (args : List GoString),
            Result.ok (l2.errorf format args) = Result.ok res → False := by
          intro format args e
          cases e
          exact not_good (Or.inr ⟨_, by rw [errorf_items, hit2, hit]⟩) hgood
        by_cases hs1 : s = eof
        · rw [if_pos hs1] at h
          exact absurd h (hbad _ _)
        · rw [if_neg hs1] at h
          by_cases hs2 : s = 0x2F
          · rw [if_pos hs2] at h
            rw [next_extend_ascii t hinv1 hn2 hs1 (by omega)]
            simp only
            rw [if_neg hs1, if_pos hs2]
            exact emit_match_extend l2 t _ _ res h
          · rw [if_neg hs2] at h
            by_cases hs3 : s = 0x3F
            · rw [if_pos hs3] at h
              exact absurd h (hbad _ _)
            · rw [if_neg hs3] at h
              by_cases hs4 : s = 0x21
              · rw [if_pos hs4] at h
                exact absurd h (hbad _ _)
              · rw [if_neg hs4] at h
                by_cases hs5 : isValidFirstChar tbl s = true
                · rw [if_pos hs5] at h
                  have hb : l2.backup.inv := backup_inv hinv1 hinv2 hst2 hc2 hs1
                  obtain ⟨v, hv⟩ := emit_spec l2.backup hb .tokenTagBegin
                  have hpos : res.2.pos = l1.pos := by
                    rw [hv] at h
                    cases h
                    rcases hc2 with ⟨e, -⟩ | ⟨-, hw⟩
                    · exact absurd e hs1
                    · simp only [lexer.backup]
                      omega
                  have hlow1 : ∃ b ∈ l1.input.drop l1.pos.toNat, b < 0x80 := by
                    rw [hin, ← hpos]
                    exact hnext
                  obtain ⟨g0, glt⟩ := low_pos hinv1 hlow1
                  rw [next_extend l1 t g0 glt hlow1 hn2]
                  simp only
                  rw [if_neg hs1, if_neg hs2, if_neg hs3, if_neg hs4, if_pos hs5]
                  exact emit_match_extend l2.backup t _ _ res h
                · rw [if_neg hs5] at h
                  exact absurd h (hbad _ _)
      · rw [if_neg hlt3] at h ⊢
        simp only [ite_self] at h ⊢
        exact ih l1 res hinv1 h (by
          obtain ⟨tok, e, ht⟩ := hgood
          exact ⟨tok, by rw [e, ← hit], ht⟩) (by rw [hin]; exact hnext)

theorem lexInit_extend (t : GoString) (l : lexer) (res : Option stateFn × lexer) (hinv : l.inv)
    (hw : l.width = 0) (h : lexInit l = .ok res)
    (hnext : ∃ b ∈ l.input.drop res.2.pos.toNat, b < 0x80) :
    lexInit (l.extend t) = .ok (res.1, res.2.extend t) := by
  obtain ⟨r, l1, hn, -, hin, hst, hit, hle, hc⟩ := next_spec l hinv
  unfold lexInit lexer.peek at h
  rw [hn] at h
  simp only at h
  have hpos : res.2.pos = l.pos := by
    have e : l1.backup.pos = l.pos := by
      rcases hc with ⟨-, rfl⟩ | ⟨-, hwd⟩
      · simp only [lexer.backup, hw]
        omega
      · simp only [lexer.backup]
        omega
    split_ifs at h <;> cases h <;> exact e
  rw [hpos] at hnext
  obtain ⟨h0, hlt⟩ := low_pos hinv hnext
  have hnx := next_extend l t h0 hlt hnext hn
  unfold lexInit lexer.peek
  rw [hnx]
  simp only
  split_ifs at h ⊢ <;> cases h <;> rfl

theorem runFrom_none (tbl : UnicodeTables) (fuel steps : Nat) (l : lexer) :
    runFrom tbl fuel steps none l = .ok l := by
  cases steps <;> rfl

theorem stepKinds_facts (st : stateFn) :
    ∀ p ∈ stepKinds st,
      p.2.length ≤ 1 ∧
      (p.1 = none → ∀ k ∈ p.2, k ≠ .tokenError → st = .lexTagInside) ∧
      (p.1 ≠ none → st ≠ .lexTagInside ∧ (p.2 = [] → st = .lexInit) ∧
        (st = .lexInit → p.2 = []) ∧
        ∀ k ∈ p.2, k ≠ .tokenError ∧ k ≠ .tokenTagEnd ∧ k ≠ .tokenTagEndDash) := by
  cases st <;> decide

theorem runFrom_high (tbl : UnicodeTables) (fuel steps : Nat) (st : Option stateFn)
    (l lf : lexer) (hst : st ≠ some .lexInit) (hinv : l.inv)
    (hh : ∀ b ∈ l.input.drop l.pos.toNat, 0x80 ≤ b)
    (h : runFrom tbl fuel steps st l = .ok lf) :
    lf.items = l.items ∨ ∃ v, lf.items = l.items ++ [⟨.tokenError, v⟩] := by
  cases st with
  | none =>
    rw [runFrom_none] at h
    cases h
    exact Or.inl rfl
  | some y =>
    cases steps with
    | zero => simp [runFrom] at h
    | succ k =>
      simp only [runFrom] at h
      cases hc : y.call tbl fuel l with
      | ok p =>
        rw [hc] at h
        simp only at h
        obtain ⟨st1, l1⟩ := p
        obtain ⟨h1, h2⟩ := call_high tbl y fuel l (st1, l1) (fun e => hst (congrArg some e))
          hinv hh hc
        simp only at h1 h2
        subst h1
        rw [runFrom_none] at h
        cases h
        exact h2
      | panic => rw [hc] at h; simp at h
      | outOfFuel => rw [hc] at h; simp at h

/-- A list that ends with `tok` and is split before a part that is not empty:
that part ends with `tok`. -/
theorem split_last {new1 new2 new : List item} {tok : item}
    (e : new1 ++ new2 = new ++ [tok]) (h2 : new2 ≠ []) :
    ∃ new3, new2 = new3 ++ [tok] := by
  obtain ⟨new3, a, rfl⟩ : ∃ new3 a, new2 = new3 ++ [a] :=
    ⟨new2.dropLast, new2.getLast h2, (List.dropLast_append_getLast h2).symm⟩
  rw [← List.append_assoc] at e
  have := List.append_inj' e rfl
  simp only [List.cons.injEq, and_true] at this
  exact ⟨new3, by rw [this.2]⟩

theorem good_of_kinds {its its1 : List item} {new1 : List item} (hit1 : its1 = its ++ new1)
    (hlen : (new1.map item.typ).length ≤ 1) (hne : new1.map item.typ ≠ [])
    (hk : ∀ k ∈ new1.map item.typ, k ≠ itemType.tokenError) :
    ∃ tok : item, its1 = its ++ [tok] ∧ tok.typ ≠ .tokenError := by
  rcases new1 with _ | ⟨a, _ | ⟨b, r⟩⟩
  · simp at hne
  · exact ⟨a, hit1, hk a.typ (by simp)⟩
  · simp at hlen

theorem runFrom_extend (tbl : UnicodeTables) (t : GoString) (fuel : Nat) (steps : Nat) :
    ∀ (st : Option stateFn) (l lf : lexer), l.inv → (st = some .lexInit → l.width = 0) →
      l.input.length < fuel → rank st ≤ steps →
      runFrom tbl fuel steps st l = .ok lf →
      (∃ new tok, lf.items = l.items ++ new ++ [tok] ∧
        (tok.typ = .tokenTagEnd ∨ tok.typ = .tokenTagEndDash)) →
      runFrom tbl fuel steps st (l.extend t) = .ok (lf.extend t) := by
  induction steps with
  | zero =>
    intro st l lf _ _ _ _ h _
    cases st with
    | none =>
      rw [runFrom_none] at h ⊢
      cases h
      rfl
    | some x => simp [runFrom] at h
  | succ k ih =>
    intro st l lf hinv hw hf hr h hcl
    cases st with
    | none =>
      rw [runFrom_none] at h ⊢
      cases h
      rfl
    | some x =>
      simp only [runFrom] at h ⊢
      cases hc : x.call tbl fuel l with
      | panic => rw [hc] at h; simp at h
      | outOfFuel => rw [hc] at h; simp at h
      | ok p =>
        obtain ⟨st1, l1⟩ := p
        rw [hc] at h
        simp only at h
        obtain ⟨st2, l2, new1, hcall, hinv1, hin1, hit1, hmem⟩ :=
          call_post tbl x l fuel hinv (fun e => hw (congrArg some e)) hf
        rw [hc] at hcall
        cases hcall
        obtain ⟨hne, hrk, -⟩ := stepKinds_runKinds x _ hmem
        obtain ⟨hlen, hnone, hsome⟩ := stepKinds_facts x _ hmem
        simp only at hne hrk hlen hnone hsome
        have hrk2 : rank st1 ≤ k := by
          have : rank st1 < rank (some x) := hrk
          omega
        obtain ⟨lf1, new2, hrun2, hit2, -⟩ :=
          runFrom_kinds tbl fuel k st1 l1 hinv1 (fun e => absurd e hne)
            (by rw [hin1]; exact hf) hrk2
        rw [h] at hrun2
        cases hrun2
        obtain ⟨new, tok, hlf, htok⟩ := hcl
        have e : new1 ++ new2 = new ++ [tok] := by
          have : l.items ++ (new1 ++ new2) = l.items ++ (new ++ [tok]) := by
            rw [← List.append_assoc, ← hit1, ← hit2, hlf, List.append_assoc]
          exact List.append_cancel_left this
        have htokE : tok.typ ≠ .tokenError := by
          rcases htok with h1 | h1 <;> rw [h1] <;> decide
        cases st1 with
        | none =>
          rw [runFrom_none] at h
          cases h
          have hn2 : new2 = [] := by
            have := congrArg List.length hit2
            simp only [List.length_append] at this
            exact List.length_eq_zero.mp (by omega)
          subst hn2
          rw [List.append_nil] at e
          subst e
          have hnew : new = [] := by
            simp only [List.map_append, List.length_append, List.length_map,
              List.length_singleton] at hlen
            exact List.length_eq_zero.mp (by omega)
          subst hnew
          have hx : x = .lexTagInside := hnone rfl tok.typ (by simp) htokE
          subst hx
          have := lexTagInside_extend t fuel l _ hinv hc ⟨tok, by rw [hit1]; rfl, htokE⟩
          simp only [stateFn.call, this, runFrom_none]
        | some y =>
          obtain ⟨hx1, hx2, hx3, hx4⟩ := hsome (by simp)
          have hn2 : new2 ≠ [] := by
            intro e2
            subst e2
            rw [List.append_nil] at e
            have hm : tok.typ ∈ new1.map item.typ := by
              rw [e]
              simp
            have := hx4 _ hm
            rcases htok with h1 | h1
            · exact this.2.1 h1
            · exact this.2.2 h1
          obtain ⟨new3, rfl⟩ := split_last e hn2
          have hcl1 : ∃ new tok, lf.items = l1.items ++ new ++ [tok] ∧
              (tok.typ = .tokenTagEnd ∨ tok.typ = .tokenTagEndDash) :=
            ⟨new3, tok, by rw [hit2, List.append_assoc], htok⟩
          have hnext : ∃ b ∈ l.input.drop l1.pos.toNat, b < 0x80 := by
            by_contra hno
            push_neg at hno
            have hbad := runFrom_high tbl fuel k (some y) l1 lf hne hinv1
              (by rw [hin1]; exact hno) h
            rcases hbad with hb | ⟨v, hb⟩
            · rw [hb] at hit2
              have := congrArg List.length hit2
              simp at this
            · rw [hb] at hit2
              have e3 : ([] : List item) ++ [⟨.tokenError, v⟩] = new3 ++ [tok] :=
                List.append_cancel_left hit2
              have := List.append_inj' e3 rfl
              simp only [List.cons.injEq, and_true] at this
              exact htokE (this.2 ▸ rfl)
          have hcallx : x.call tbl fuel (l.extend t) = .ok (some y, l1.extend t) := by
            cases x with
            | lexInit => exact lexInit_extend t l _ hinv (hw rfl) hc hnext
            | lexCommon =>
              exact lexCommon_extend tbl t fuel l _ hinv hc
                (good_of_kinds hit1 hlen (fun e0 => by simpa using hx2 e0)
                  (fun k hk => (hx4 k hk).1)) hnext
            | lexTagName =>
              exact lexTagName_extend tbl t fuel l _ hinv hc
                (good_of_kinds hit1 hlen (fun e0 => by simpa using hx2 e0)
                  (fun k hk => (hx4 k hk).1))
            | lexTagInside => exact absurd rfl hx1
          rw [hcallx]
          simp only
          exact ih (some y) l1 lf hinv1 (fun e0 => absurd e0 hne) (by rw [hin1]; exact hf)
            hrk2 h hcl1

/-! ## The claims -/

/-- C1: for every name that matches the tag-name grammar, the items sent for
the input `<name/>` are exactly `TagBegin "<"`, `TagName name`,
`TagEndDash "/>"`, after which the channel is closed. -/
theorem selfClosingTag_tokens (tbl : UnicodeTables) (name : GoString)
    (h : tagNameGrammar tbl name = true) :
    NewLexer tbl (str "<" ++ name ++ str "/>") =
      .ok [⟨.tokenTagBegin, str "<"⟩, ⟨.tokenTagName, name⟩, ⟨.tokenTagEndDash, str "/>"⟩] := by
  have := lex_selfclosing tbl name 0 h
  simpa [str_lt, str_slash_gt] using this

/-- C1 at the inputs `<person/>` (the test `TestSingleTag`) and `<a/>`. -/
theorem selfClosingTag_tokens_witness :
    (tagNameGrammar noTables (str "person") = true ∧
      NewLexer noTables (str "<" ++ str "person" ++ str "/>") =
        .ok [⟨.tokenTagBegin, str "<"⟩, ⟨.tokenTagName, str "person"⟩,
          ⟨.tokenTagEndDash, str "/>"⟩]) ∧
    (tagNameGrammar noTables (str "a") = true ∧
      NewLexer noTables (str "<" ++ str "a" ++ str "/>") =
        .ok [⟨.tokenTagBegin, str "<"⟩, ⟨.tokenTagName, str "a"⟩, ⟨.tokenTagEndDash, str "/>"⟩]) :=
  ⟨⟨by decide, selfClosingTag_tokens noTables (str "person") (by decide)⟩,
    ⟨by decide, selfClosingTag_tokens noTables (str "a") (by decide)⟩⟩

/-- C2 (code defect): the closing tag `</a>` is not lexed into `TagBeginDash`,
`TagName`, `TagEnd`: `lexTagName` ends a name at a space or `/` only, so the
`>` right after the name is reported as an invalid character and the run ends
with `TagBeginDash "</"` and an `Error`. -/
theorem closingTag_rejected (tbl : UnicodeTables) :
    tagNameGrammar tbl (str "a") = true ∧
    NewLexer tbl (str "</" ++ str "a" ++ str ">") =
      .ok [⟨.tokenTagBeginDash, str "</"⟩, ⟨.tokenError, Sprintf msgName [str ">"]⟩] ∧
    NewLexer tbl (str "</" ++ str "a" ++ str " >") =
      .ok [⟨.tokenTagBeginDash, str "</"⟩, ⟨.tokenTagName, str "a"⟩, ⟨.tokenTagEnd, str ">"⟩] :=
  ⟨rfl, rfl, rfl⟩

/-- C3 fails as stated: for `<person` two items are sent, `TagBegin "<"` and
then the `Error`, not the `Error` alone. -/
theorem unterminatedName_counterexample :
    tagNameGrammar noTables (str "person") = true ∧
    NewLexer noTables (str "<" ++ str "person") =
      .ok [⟨.tokenTagBegin, str "<"⟩, ⟨.tokenError, Sprintf msgEOF []⟩] ∧
    kinds (NewLexer noTables (str "<" ++ str "person")) ≠ .ok [.tokenError] := by
  decide

/-- C3, amended: for every name that matches the tag-name grammar, the items
sent for `<name` at the end of the input are `TagBegin "<"` and then exactly
one `Error`, which is the last item. -/
theorem unterminatedName_tokens (tbl : UnicodeTables) (name : GoString)
    (h : tagNameGrammar tbl name = true) :
    ∃ v, NewLexer tbl (str "<" ++ name) = .ok [⟨.tokenTagBegin, str "<"⟩, ⟨.tokenError, v⟩] := by
  refine ⟨Sprintf msgEOF [], ?_⟩
  have := lex_unterminated tbl name h
  simpa [str_lt] using this

/-- C3, amended, at the input `<person`. -/
theorem unterminatedName_tokens_witness :
    tagNameGrammar noTables (str "person") = true ∧
    ∃ v, NewLexer noTables (str "<" ++ str "person") =
      .ok [⟨.tokenTagBegin, str "<"⟩, ⟨.tokenError, v⟩] :=
  ⟨by decide, unterminatedName_tokens noTables (str "person") (by decide)⟩

/-- C4 (code defect): `lexCommon` does not drop the characters it skips before
a tag, so they are part of the value of the tag-opening item: `a<b/>` sends
`TagBegin "a<"` and `a</b >` sends `TagBeginDash "a</"`. -/
theorem tagBegin_value_with_text (tbl : UnicodeTables) :
    NewLexer tbl (str "a<b/>") =
      .ok [⟨.tokenTagBegin, str "a<"⟩, ⟨.tokenTagName, str "b"⟩, ⟨.tokenTagEndDash, str "/>"⟩] ∧
    NewLexer tbl (str "a</b >") =
      .ok [⟨.tokenTagBeginDash, str "a</"⟩, ⟨.tokenTagName, str "b"⟩, ⟨.tokenTagEnd, str ">"⟩] :=
  ⟨rfl, rfl⟩

/-- C5 (code defect): `lexTagInside` drops the spaces it skips but not the
other characters, so they are part of the value of the tag-closing item:
`<a b>` sends `TagEnd "b>"` and `<a x/>` sends `TagEndDash "x/>"`. -/
theorem tagEnd_value_with_text (tbl : UnicodeTables) :
    NewLexer tbl (str "<a b>") =
      .ok [⟨.tokenTagBegin, str "<"⟩, ⟨.tokenTagName, str "a"⟩, ⟨.tokenTagEnd, str "b>"⟩] ∧
    NewLexer tbl (str "<a x/>") =
      .ok [⟨.tokenTagBegin, str "<"⟩, ⟨.tokenTagName, str "a"⟩, ⟨.tokenTagEndDash, str "x/>"⟩] :=
  ⟨rfl, rfl⟩

/-- C6 (code defect): after `</` the first character of the name is not
checked with `isValidFirstChar`, so a `TagName` can be empty (`</ >`) or start
with a digit (`</1 >`); neither value matches the tag-name grammar. -/
theorem closingTag_name_unchecked (tbl : UnicodeTables) :
    (NewLexer tbl (str "</ >") =
      .ok [⟨.tokenTagBeginDash, str "</"⟩, ⟨.tokenTagName, str ""⟩, ⟨.tokenTagEnd, str ">"⟩] ∧
      tagNameGrammar tbl (str "") = false) ∧
    (NewLexer tbl (str "</1 >") =
      .ok [⟨.tokenTagBeginDash, str "</"⟩, ⟨.tokenTagName, str "1"⟩, ⟨.tokenTagEnd, str ">"⟩] ∧
      tagNameGrammar tbl (str "1") = false) :=
  ⟨⟨rfl, rfl⟩, ⟨rfl, rfl⟩⟩

/-- C7: for every name that matches the tag-name grammar and every `n`, the
items sent for `<name` followed by `n` spaces and `/>` are the items sent for
`<name/>`: the three items `TagBegin "<"`, `TagName name`, `TagEndDash "/>"`,
none for the spaces. -/
theorem spaces_before_close (tbl : UnicodeTables) (name : GoString) (n : Nat)
    (h : tagNameGrammar tbl name = true) :
    NewLexer tbl (str "<" ++ name ++ List.replicate n 0x20 ++ str "/>") =
      NewLexer tbl (str "<" ++ name ++ str "/>") ∧
    NewLexer tbl (str "<" ++ name ++ List.replicate n 0x20 ++ str "/>") =
      .ok [⟨.tokenTagBegin, str "<"⟩, ⟨.tokenTagName, name⟩, ⟨.tokenTagEndDash, str "/>"⟩] := by
  have h0 := lex_selfclosing tbl name 0 h
  have hn := lex_selfclosing tbl name n h
  simp only [str_lt, str_slash_gt, List.replicate_zero, List.nil_append, List.cons_append,
    List.append_assoc] at h0 hn ⊢
  exact ⟨hn.trans h0.symm, hn⟩

/-- C7 at the inputs `<person   />` and `<person/>` of the tests. -/
theorem spaces_before_close_witness :
    tagNameGrammar noTables (str "person") = true ∧
    NewLexer noTables (str "<" ++ str "person" ++ List.replicate 3 0x20 ++ str "/>") =
      NewLexer noTables (str "<" ++ str "person" ++ str "/>") ∧
    NewLexer noTables (str "<" ++ str "person" ++ List.replicate 3 0x20 ++ str "/>") =
      .ok [⟨.tokenTagBegin, str "<"⟩, ⟨.tokenTagName, str "person"⟩,
        ⟨.tokenTagEndDash, str "/>"⟩] :=
  ⟨by decide, spaces_before_close noTables (str "person") 3 (by decide)⟩

/-- C8: for the empty input exactly one item is sent, and it is an `Error`. -/
theorem empty_input_error (tbl : UnicodeTables) :
    ∃ v, NewLexer tbl (str "") = .ok [⟨.tokenError, v⟩] :=
  ⟨Sprintf msgEOF [], rfl⟩

/-- C9: for every input that begins with `<?` or with `<!` exactly one item is
sent, and it is an `Error`. -/
theorem unsupported_construct_error (tbl : UnicodeTables) (rest : GoString) :
    (∃ v, NewLexer tbl (str "<?" ++ rest) = .ok [⟨.tokenError, v⟩]) ∧
    (∃ v, NewLexer tbl (str "<!" ++ rest) = .ok [⟨.tokenError, v⟩]) :=
  ⟨⟨_, lex_declaration tbl rest⟩, ⟨_, lex_comment tbl rest⟩⟩

theorem runKinds_error_last :
    ∀ ks ∈ runKinds (some .lexInit),
      ks.count .tokenError ≤ 1 ∧ itemType.tokenError ∉ ks.dropLast := by
  decide

/-- C10: for every input the run ends and the items sent hold at most one
`Error`, which no item follows: none of the items before the last one is an
`Error`.  What `errorf` returns is the `nil` state, on which `run` stops with
the items as they are. -/
theorem error_is_last (tbl : UnicodeTables) (input : GoString) :
    (∃ items, NewLexer tbl input = .ok items ∧
      (items.map item.typ).count .tokenError ≤ 1 ∧
      ∀ t ∈ items.dropLast, t.typ ≠ .tokenError) ∧
    ∀ (l : lexer) (format : GoString) (args : List GoString) (fuel steps : Nat),
      (l.errorf format args).1 = none ∧
      runFrom tbl fuel steps (l.errorf format args).1 (l.errorf format args).2 =
        .ok (l.errorf format args).2 := by
  constructor
  · obtain ⟨items, hrun, hk⟩ := NewLexer_kinds tbl input
    obtain ⟨hc, hl⟩ := runKinds_error_last _ hk
    refine ⟨items, hrun, hc, ?_⟩
    intro t ht htyp
    apply hl
    rw [← List.map_dropLast]
    exact List.mem_map.mpr ⟨t, ht, htyp⟩
  · intro l format args fuel steps
    refine ⟨rfl, ?_⟩
    cases steps <;> rfl

/-- C11 (code defect): for `<a/` the last item is not the end-of-file
diagnostic of the empty input and of `<a `: after a `/` `lexTagInside` compares
the next rune with `>` without a test for `eof`, so the end of the input is
reported as an invalid character (the rune `eof`, printed as a NUL byte). -/
theorem truncatedClose_diagnostic (tbl : UnicodeTables) :
    tagNameGrammar tbl (str "a") = true ∧
    NewLexer tbl (str "<" ++ str "a" ++ str "/") =
      .ok [⟨.tokenTagBegin, str "<"⟩, ⟨.tokenTagName, str "a"⟩,
        ⟨.tokenError, str "Invalid character: Expected \x27>\x27, found \x27[" ++ [0] ++
          str "]\x27"⟩] ∧
    NewLexer tbl (str "") = .ok [⟨.tokenError, Sprintf msgEOF []⟩] ∧
    NewLexer tbl (str "<" ++ str "a" ++ str " ") =
      .ok [⟨.tokenTagBegin, str "<"⟩, ⟨.tokenTagName, str "a"⟩,
        ⟨.tokenError, Sprintf msgEOF []⟩] ∧
    str "Invalid character: Expected \x27>\x27, found \x27[" ++ [0] ++ str "]\x27" ≠
      Sprintf msgEOF [] :=
  ⟨rfl, rfl, rfl, rfl, by decide⟩

theorem runKinds_reserved :
    ∀ ks ∈ runKinds (some .lexInit), ∀ k ∈ ks,
      k ≠ .tokenAttrName ∧ k ≠ .tokenEquals ∧ k ≠ .tokenDoubleQuotedString ∧
        k ≠ .tokenSingleQuotedString ∧ k ≠ .tokenText := by
  decide

/-- C13: for every input the run ends and none of the items sent has the kind
`AttrName`, `Equals`, `DoubleQuotedString`, `SingleQuotedString` or `Text`. -/
theorem reserved_kinds_never_sent (tbl : UnicodeTables) (input : GoString) :
    ∃ items, NewLexer tbl input = .ok items ∧
      ∀ t ∈ items, t.typ ≠ .tokenAttrName ∧ t.typ ≠ .tokenEquals ∧
        t.typ ≠ .tokenDoubleQuotedString ∧ t.typ ≠ .tokenSingleQuotedString ∧
        t.typ ≠ .tokenText := by
  obtain ⟨items, hrun, hk⟩ := NewLexer_kinds tbl input
  refine ⟨items, hrun, ?_⟩
  intro t ht
  exact runKinds_reserved _ hk t.typ (List.mem_map.mpr ⟨t, ht, rfl⟩)

/-- C14 (code defect): the value of the `Error` of the empty input is not the
text `Unexpected end of file` alone.  `errorf` hands its slice `args` to
`fmt.Sprintf` as one operand (`args`, not `args...`), so for a format without
a verb `Sprintf` appends the report of an extra operand, also when `errorf`
was called without arguments. -/
theorem errorf_value_extra (tbl : UnicodeTables) :
    NewLexer tbl (str "") =
      .ok [⟨.tokenError, str "Unexpected end of file%!(EXTRA []interface \x7b\x7d=[])"⟩] ∧
    str "Unexpected end of file%!(EXTRA []interface \x7b\x7d=[])" ≠
      str "Unexpected end of file" ∧
    ∀ (l : lexer) (format : GoString), splitVerb format = none →
      (l.errorf format []).2.items =
        l.items ++ [⟨.tokenError, format ++ str "%!(EXTRA []interface \x7b\x7d=[])"⟩] := by
  refine ⟨rfl, by decide, ?_⟩
  intro l format h
  have e : str "%!(EXTRA []interface \x7b\x7d=" ++ (fmtSlice [] ++ str ")") =
      str "%!(EXTRA []interface \x7b\x7d=[])" := by decide
  simp only [lexer.errorf, Sprintf, h, List.append_assoc, e]

/-- C16 fails as stated: in the state with input `a`, `pos = 1` and
`width = 1` the invariant holds, `next` returns `eof` and leaves `pos = 1`
with the stale `width`, and the `backup` of `peek` subtracts that width, so
`pos` is 0 after `peek`. -/
theorem peek_counterexample :
    lexer.inv ⟨.lexInit, str "a", 0, 1, 1, []⟩ ∧
    lexer.next ⟨.lexInit, str "a", 0, 1, 1, []⟩ =
      .ok (eof, ⟨.lexInit, str "a", 0, 1, 1, []⟩) ∧
    lexer.peek ⟨.lexInit, str "a", 0, 1, 1, []⟩ =
      .ok (eof, ⟨.lexInit, str "a", 0, 0, 1, []⟩) ∧
    ¬ ∃ r l2, lexer.peek ⟨.lexInit, str "a", 0, 1, 1, []⟩ = .ok (r, l2) ∧
      l2.pos = lexer.pos ⟨.lexInit, str "a", 0, 1, 1, []⟩ := by
  have hp : lexer.peek ⟨.lexInit, str "a", 0, 1, 1, []⟩ =
      .ok (eof, ⟨.lexInit, str "a", 0, 0, 1, []⟩) := by decide
  refine ⟨⟨by decide, by decide, by decide⟩, by decide, hp, ?_⟩
  rintro ⟨r, l2, h, hpos⟩
  rw [hp] at h
  cases h
  simp at hpos

/-- C16, amended: in every state with `0 <= start <= pos <= len(input)` in
which `pos < len(input)` or the recorded width is 0 (the state in which
`lexInit` calls it), `peek` returns the rune that `next` returns from that
state and leaves `pos`, `start`, the input and the items as they are. -/
theorem peek_nonconsuming (l : lexer) (hinv : l.inv)
    (h : l.pos < l.input.length ∨ l.width = 0) :
    ∃ r l1 l2, l.next = .ok (r, l1) ∧ l.peek = .ok (r, l2) ∧ l2.pos = l.pos ∧
      l2.start = l.start ∧ l2.input = l.input ∧ l2.items = l.items := by
  obtain ⟨i0, i1, i2⟩ := hinv
  by_cases hlt : l.pos < l.input.length
  · have hn := next_lt l (by omega) hlt
    have hp : l.peek = .ok ((DecodeRuneInString (l.input.drop l.pos.toNat)).1,
        lexer.backup { l with
          width := ((DecodeRuneInString (l.input.drop l.pos.toNat)).2 : Nat),
          pos := l.pos + ((DecodeRuneInString (l.input.drop l.pos.toNat)).2 : Nat) }) := by
      unfold lexer.peek
      rw [hn]
    refine ⟨_, _, _, hn, hp, ?_, rfl, rfl, rfl⟩
    simp only [lexer.backup]
    omega
  · have hw : l.width = 0 := by
      rcases h with h | h
      · exact absurd h hlt
      · exact h
    have hn := next_of_ge l (by omega)
    have hp : l.peek = .ok (eof, l.backup) := by
      unfold lexer.peek
      rw [hn]
    refine ⟨_, _, _, hn, hp, ?_, rfl, rfl, rfl⟩
    simp only [lexer.backup, hw]
    omega

/-- C16, amended, at the two kinds of state: the fresh lexer of `<a/>`
(`pos < len(input)`) and the fresh lexer of the empty input (width 0 at the
end of the input). -/
theorem peek_nonconsuming_witness :
    (lexer.inv (newLexer (str "<a/>")) ∧
      ∃ r l1 l2, (newLexer (str "<a/>")).next = .ok (r, l1) ∧
        (newLexer (str "<a/>")).peek = .ok (r, l2) ∧ l2.pos = (newLexer (str "<a/>")).pos ∧
        l2.start = (newLexer (str "<a/>")).start ∧ l2.input = (newLexer (str "<a/>")).input ∧
        l2.items = (newLexer (str "<a/>")).items) ∧
    (lexer.inv (newLexer (str "")) ∧
      ∃ r l1 l2, (newLexer (str "")).next = .ok (r, l1) ∧
        (newLexer (str "")).peek = .ok (r, l2) ∧ l2.pos = (newLexer (str "")).pos ∧
        l2.start = (newLexer (str "")).start ∧ l2.input = (newLexer (str "")).input ∧
        l2.items = (newLexer (str "")).items) :=
  ⟨⟨⟨by decide, by decide, by decide⟩,
      peek_nonconsuming (newLexer (str "<a/>")) ⟨by decide, by decide, by decide⟩
        (Or.inl (by decide))⟩,
    ⟨⟨by decide, by decide, by decide⟩,
      peek_nonconsuming (newLexer (str "")) ⟨by decide, by decide, by decide⟩
        (Or.inr rfl)⟩⟩

/-- C17 (code defect): the rune `eof` is 0, the rune of a NUL byte.  On the
input of one NUL byte `next` at `pos = 0`, before the end of the input,
returns `eof` and moves `pos` to 1, and the run reports the end of the file
for an input that is not empty.  At the end of the input `next` does return
`eof` and leave the lexer as it is. -/
theorem eof_is_nul (tbl : UnicodeTables) :
    eof = 0 ∧
    lexer.next (newLexer [0]) = .ok (eof, ⟨.lexInit, [0], 0, 1, 1, []⟩) ∧
    NewLexer tbl [0] = .ok [⟨.tokenError, Sprintf msgEOF []⟩] ∧
    NewLexer tbl (str "") = .ok [⟨.tokenError, Sprintf msgEOF []⟩] ∧
    ∀ l : lexer, (l.input.length : Int) ≤ l.pos → l.next = .ok (eof, l) :=
  ⟨rfl, by decide, rfl, rfl, next_of_ge⟩

/-- C18: for every input the state machine ends: there is a final lexer that
`run` returns, the `nil` state reached and the channel closed, for every
bound on the loops above the length of the input and every bound of four or
more on the number of state functions called; its items are the finite list
that `NewLexer` yields.  From a state that satisfies the invariant `next`
returns `eof` or moves `pos` forward, and never beyond the end of the input. -/
theorem run_terminates (tbl : UnicodeTables) (input : GoString) :
    (∃ l1, (∀ fuel steps, input.length < fuel → 4 ≤ steps →
        (newLexer input).run tbl fuel steps = .ok l1) ∧
      NewLexer tbl input = .ok l1.items) ∧
    ∀ l : lexer, l.inv → ∃ r l1, l.next = .ok (r, l1) ∧ (r = eof ∨ l.pos < l1.pos) ∧
      l1.pos ≤ l.input.length := by
  constructor
  · have hinv : (newLexer input).inv := by
      refine ⟨le_refl _, le_refl _, ?_⟩
      simp only [newLexer]
      omega
    obtain ⟨l1, new, hrun, -, -⟩ :=
      runFrom_kinds tbl (input.length + 1) 4 (some .lexInit) (newLexer input) hinv
        (fun _ => rfl) (by simp [newLexer]) (by simp [rank])
    refine ⟨l1, ?_, ?_⟩
    · intro fuel steps hf hs
      exact runFrom_mono tbl (input.length + 1) fuel (by omega) 4 steps _ _ _ hrun hs
    · unfold NewLexer lexer.run
      have : (newLexer input).init = .lexInit := rfl
      rw [this, hrun]
  · intro l h
    obtain ⟨r, l1, hn, -, -, -, -, hle, hc⟩ := next_spec l h
    refine ⟨r, l1, hn, ?_, hle⟩
    rcases hc with ⟨h1, -⟩ | ⟨h1, -⟩
    · exact Or.inl h1
    · exact Or.inr h1

theorem runKinds_shapes :
    ∀ ks ∈ runKinds (some .lexInit), ks.length ≤ 3 ∧
      ∃ b ∈ [itemType.tokenTagBegin, .tokenTagBeginDash],
        ∃ e ∈ [itemType.tokenTagEnd, .tokenTagEndDash],
          ks = [] ∨ ks = [.tokenError] ∨ ks = [b, .tokenError] ∨
            ks = [b, .tokenTagName, .tokenError] ∨ ks = [b, .tokenTagName, e] := by
  decide

/-- C19: for every input the run ends and the kinds of the items sent are
`[]`, `[Error]`, `[B, Error]`, `[B, TagName, Error]` or `[B, TagName, E]` with
`B` one of `TagBegin`, `TagBeginDash` and `E` one of `TagEnd`, `TagEndDash`;
at most three items are sent.  Each of the five shapes occurs. -/
theorem token_kinds_shapes (tbl : UnicodeTables) (input : GoString) :
    (∃ items, NewLexer tbl input = .ok items ∧ items.length ≤ 3 ∧
      ∃ b e, (b = .tokenTagBegin ∨ b = .tokenTagBeginDash) ∧
        (e = .tokenTagEnd ∨ e = .tokenTagEndDash) ∧
        (items.map item.typ = [] ∨ items.map item.typ = [.tokenError] ∨
          items.map item.typ = [b, .tokenError] ∨
          items.map item.typ = [b, .tokenTagName, .tokenError] ∨
          items.map item.typ = [b, .tokenTagName, e])) ∧
    (kinds (NewLexer tbl (str "abc")) = .ok [] ∧
      kinds (NewLexer tbl (str "")) = .ok [.tokenError] ∧
      kinds (NewLexer tbl (str "<a")) = .ok [.tokenTagBegin, .tokenError] ∧
      kinds (NewLexer tbl (str "</a ")) =
        .ok [.tokenTagBeginDash, .tokenTagName, .tokenError] ∧
      kinds (NewLexer tbl (str "<a/>")) =
        .ok [.tokenTagBegin, .tokenTagName, .tokenTagEndDash] ∧
      kinds (NewLexer tbl (str "</a >")) =
        .ok [.tokenTagBeginDash, .tokenTagName, .tokenTagEnd]) := by
  refine ⟨?_, rfl, rfl, rfl, rfl, rfl, rfl⟩
  obtain ⟨items, hrun, hk⟩ := NewLexer_kinds tbl input
  obtain ⟨hlen, b, hb, e, he, hs⟩ := runKinds_shapes _ hk
  refine ⟨items, hrun, by simpa using hlen, b, e, by simpa using hb, by simpa using he, hs⟩

/-- C15: for every input the invariant `0 <= start <= pos <= len(input)`
holds in the initial lexer and in the lexer that each call of `next`,
`backup`, `peek`, `emit` and `ignore` of the run leaves; the run with the
record of these lexers ends, and it ends with the lexer of `run`. -/
theorem scanner_invariant (tbl : UnicodeTables) (input : GoString) :
    (newLexer input).inv ∧
    ∃ lf tr, runFromT tbl (input.length + 1) 4 (some .lexInit) (newLexer input) = .ok (lf, tr) ∧
      (∀ a ∈ tr, 0 ≤ a.start ∧ a.start ≤ a.pos ∧ a.pos ≤ a.input.length) ∧
      (newLexer input).run tbl (input.length + 1) 4 = .ok lf ∧
      NewLexer tbl input = .ok lf.items := by
  have hinv : (newLexer input).inv := by
    refine ⟨le_refl _, le_refl _, ?_⟩
    simp only [newLexer]
    omega
  obtain ⟨lf, tr, hT, hU, hI⟩ :=
    runFromT_spec tbl (input.length + 1) 4 (some .lexInit) (newLexer input) hinv
      (fun _ => rfl) (by simp [newLexer]) (by simp [rank])
  have hrun : (newLexer input).run tbl (input.length + 1) 4 = .ok lf := hU
  refine ⟨hinv, lf, tr, hT, hI, hrun, ?_⟩
  unfold NewLexer
  rw [hrun]

/-- C12: for all strings `s` and `t`, when the items sent for `s` end with a
`TagEnd` or a `TagEndDash`, the items sent for `s ++ t` are the items sent for
`s`: nothing after the first tag close is lexed. -/
theorem single_tag_only (tbl : UnicodeTables) (s t : GoString) (items : List item)
    (h : NewLexer tbl s = .ok items)
    (hlast : ∃ tok, items.getLast? = some tok ∧
      (tok.typ = .tokenTagEnd ∨ tok.typ = .tokenTagEndDash)) :
    NewLexer tbl (s ++ t) = .ok items := by
  unfold NewLexer at h
  cases hrun : (newLexer s).run tbl (s.length + 1) 4 with
  | panic => rw [hrun] at h; simp at h
  | outOfFuel => rw [hrun] at h; simp at h
  | ok lf =>
    rw [hrun] at h
    simp only at h
    cases h
    obtain ⟨tok, hl, htok⟩ := hlast
    obtain ⟨new, hnew⟩ := List.getLast?_eq_some_iff.mp hl
    have hinv : (newLexer s).inv := by
      refine ⟨le_refl _, le_refl _, ?_⟩
      simp only [newLexer]
      omega
    have hx := runFrom_extend tbl t (s.length + 1) 4 (some .lexInit) (newLexer s) lf hinv
      (fun _ => rfl) (by simp [newLexer]) (by simp [rank]) hrun
      ⟨new, tok, by rw [hnew]; rfl, htok⟩
    have hm := runFrom_mono tbl (s.length + 1) ((s ++ t).length + 1)
      (by simp only [List.length_append]; omega) 4 4 _ _ _ hx (le_refl _)
    have hnl : (newLexer s).extend t = newLexer (s ++ t) := rfl
    rw [hnl] at hm
    unfold NewLexer lexer.run
    have hini : (newLexer (s ++ t)).init = .lexInit := rfl
    rw [hini, hm]
    rfl

/-- C12 at `s = <a/>` and `t = <b/>`. -/
theorem single_tag_only_witness :
    NewLexer noTables (str "<a/>") =
      .ok [⟨.tokenTagBegin, str "<"⟩, ⟨.tokenTagName, str "a"⟩, ⟨.tokenTagEndDash, str "/>"⟩] ∧
    NewLexer noTables (str "<a/>" ++ str "<b/>") =
      .ok [⟨.tokenTagBegin, str "<"⟩, ⟨.tokenTagName, str "a"⟩, ⟨.tokenTagEndDash, str "/>"⟩] :=
  ⟨by decide, single_tag_only noTables (str "<a/>") (str "<b/>") _ (by decide)
    ⟨_, rfl, Or.inr rfl⟩⟩

end XmlLexer
